import Mathlib

/-!
# conff: a flat-file key/value configuration store

Shallow embedding of `src/include/conff.hpp` and `src/src/conff.cpp`.

* `std::string` is a list of characters (`Str`).
* The `MD5` functor of `md5.h` is not part of the sources; every operation that
  hashes a name takes the hash function as its first argument `hash`.
* `std::stoi` / `std::stoul` throw; functions that call them return `Except Exn _`
  or an `Outcome`.  `unsigned long` has a platform dependent width, its largest
  value is the argument `ULONG_MAX`.
* Files are the contents seen through a text stream; the file system is a
  `FileSystem` value passed in and out explicitly.
-/

set_option linter.dupNamespace false

namespace cf

/-- Byte strings (`std::string`). -/
abbrev Str := List Char

/-! ## Constants of `conff.hpp` -/

/-- Format version written in every header (`constexpr int CONFF_VERSION(1000)`). -/
def CONFF_VERSION : Int := 1000

/-- Sentinel of `get_int` (`constexpr int INT_ERROR(2147483647)`). -/
def INT_ERROR : Int := 2147483647

/-- Sentinel of `get_string` (`constexpr char STR_ERROR[] = "_NaN_"`). -/
def STR_ERROR : Str := "_NaN_".toList

/-- Largest value of a 32-bit `int`. -/
def INT_MAX : Int := 2147483647

/-- Smallest value of a 32-bit `int`. -/
def INT_MIN : Int := -2147483648

/-- Values of `enum class CONFF_ITEM_TYPE : unsigned short`: any 16-bit unsigned
number is a value of an enumeration with a fixed underlying type. -/
abbrev CONFF_ITEM_TYPE := Nat

/-- Enumerator `CONFF_ITEM_TYPE::TEXT = 0`. -/
def CONFF_ITEM_TYPE.TEXT : CONFF_ITEM_TYPE := 0

/-- Enumerator `CONFF_ITEM_TYPE::INTEGER` (1). -/
def CONFF_ITEM_TYPE.INTEGER : CONFF_ITEM_TYPE := 1

/-- Enumerator `CONFF_ITEM_TYPE::NO_TYPE` (2). -/
def CONFF_ITEM_TYPE.NO_TYPE : CONFF_ITEM_TYPE := 2

/-- Record `struct conff_item`; the defaults are those of its constructor
`conff_item() : type(NO_TYPE), hash(""), value("")`. -/
structure conff_item where
  type : CONFF_ITEM_TYPE := CONFF_ITEM_TYPE.NO_TYPE
  hash : Str := []
  value : Str := []
deriving DecidableEq, Repr

/-- Data members of `class conf_file`. -/
structure conf_file where
  _version : Int
  _file_name : Str
  _items : List conff_item
deriving DecidableEq, Repr

/-- Constructor `conf_file::conf_file() : _version{-1}, _file_name{""}`. -/
def conf_file.conf_file : conf_file :=
  { _version := -1, _file_name := [], _items := [] }

/-! ## Standard library pieces used by the code -/

/-- Exceptions thrown by `std::stoi` and `std::stoul`. -/
inductive Exn where
  | invalid_argument
  | out_of_range
deriving DecidableEq, Repr

deriving instance DecidableEq for Except

/-- Result of a member function that can throw: it either returns a value or
raises, and in both cases leaves the object in some state. -/
inductive Outcome (α : Type) where
  | returned (value : α) (self : conf_file)
  | raised (e : Exn) (self : conf_file)
deriving DecidableEq, Repr

/-- Numeric value of a decimal digit character. -/
def digit_value (c : Char) : Nat := c.toNat - 48

/-- Number denoted by a string of decimal digits, most significant first. -/
def decimal_value (ds : Str) : Nat :=
  ds.foldl (fun acc c => 10 * acc + digit_value c) 0

/-- The predicate `std::isspace` in the "C" locale. -/
def isspace (c : Char) : Bool :=
  c = ' ' || c = '\t' || c = '\n' || c = '\x0b' || c = '\x0c' || c = '\r'

/-- Sign and digit run that `strtol` / `strtoul` read from a string: leading
white space is skipped, one optional sign is taken, then the longest run of
decimal digits. -/
def scan_number (s : Str) : Bool × Str :=
  match s.dropWhile isspace with
  | '-' :: r => (true, r.takeWhile Char.isDigit)
  | '+' :: r => (false, r.takeWhile Char.isDigit)
  | t => (false, t.takeWhile Char.isDigit)

/-- The function `std::stoi(str)`: `invalid_argument` when no digit can be read,
`out_of_range` when the number does not fit an `int`. -/
def stoi (s : Str) : Except Exn Int :=
  match scan_number s with
  | (_, []) => .error .invalid_argument
  | (neg, ds) =>
    let v : Int := if neg then -(decimal_value ds : Int) else (decimal_value ds : Int)
    if v < INT_MIN ∨ INT_MAX < v then .error .out_of_range else .ok v

/-- The function `std::stoul(str)` for an `unsigned long` whose largest value is
`ULONG_MAX`; a leading minus sign negates in the unsigned type, as `strtoul`
does. -/
def stoul (ULONG_MAX : Nat) (s : Str) : Except Exn Nat :=
  match scan_number s with
  | (_, []) => .error .invalid_argument
  | (neg, ds) =>
    let v := decimal_value ds
    if ULONG_MAX < v then .error .out_of_range
    else .ok (if neg then (ULONG_MAX + 1 - v) % (ULONG_MAX + 1) else v)

/-- Decimal text of an `int`, as `std::to_string(int)` and `ostream << int`
produce it. -/
def to_string (v : Int) : Str :=
  match v with
  | .ofNat n => Nat.toDigits 10 n
  | .negSucc n => '-' :: Nat.toDigits 10 (n + 1)

/-- Fragments of `text` delimited by `sep`, in order; `cur` holds, reversed, the
characters of the fragment being read.  The fragment after the last delimiter
is always delivered, also when it is empty. -/
def cut (sep : Char) : Str → Str → List Str
  | [], cur => [cur.reverse]
  | c :: cs, cur =>
    if c = sep then cur.reverse :: cut sep cs [] else cut sep cs (c :: cur)

/-- Lines delivered by the calls of `std::getline(file, line)` in
`while(!file.eof())`: each call reads up to the next newline, which it drops,
and the call that reaches the end of the stream sets `eof` and delivers what
is left (possibly the empty string). -/
def getlines (content : Str) : List Str := cut '\n' content []

/-- File system as the code sees it: `content p` is what an `std::ifstream`
opened on `p` reads (`none` when the stream is not `good()`), `writable p` tells
whether an `std::ofstream` on `p` is `good()`. -/
structure FileSystem where
  content : Str → Option Str
  writable : Str → Bool

/-- File system after an output stream on `p`, opened truncating, wrote `data`
and was closed. -/
def FileSystem.write (fs : FileSystem) (p : Str) (data : Str) : FileSystem :=
  { fs with content := fun q => if q = p then some data else fs.content q }

/-! ## `conff.cpp` -/

/-- Free function `is_integer`: the text is not empty and every character is a
decimal digit. -/
def is_integer (text : Str) : Bool :=
  if text = [] then false else text.all Char.isDigit

/-- Free function `Split(text, separator)`: no fragment at all for the empty
text, otherwise the fragments between the separators. -/
def Split (text : Str) (separator : Char) : List Str :=
  if text = [] then [] else cut separator text []

/-- Method `conf_file::get_version`. -/
def get_version (self : conf_file) : Int := self._version

/-- Method `conf_file::get_n_items`. -/
def get_n_items (self : conf_file) : Nat := self._items.length

/-- Method `conf_file::_item_from_text`: the default item (empty hash, `NO_TYPE`)
when the line is not of the shape `$config <hash> <digits>~<value>`; the kind is
`static_cast<CONFF_ITEM_TYPE>(std::stoul(...))`, a conversion to `unsigned short`. -/
def _item_from_text (ULONG_MAX : Nat) (text : Str) : Except Exn conff_item :=
  let item : conff_item := {}
  match Split text '~' with
  | [content0, content1] =>
    match Split content0 ' ' with
    | [info0, info1, info2] =>
      if info0 ≠ "$config".toList ∨ !is_integer info2 then .ok item
      else
        match stoul ULONG_MAX info2 with
        | .error e => .error e
        | .ok n => .ok { hash := info1, value := content1, type := n % 65536 }
    | _ => .ok item
  | _ => .ok item

/-- Method `conf_file::_text_from_item`; the kind is printed as
`static_cast<unsigned short>(item.type)`, and `std::endl` ends the line. -/
def _text_from_item (item : conff_item) : Str :=
  "$config ".toList ++ item.hash ++ " ".toList ++ to_string ((item.type % 65536 : Nat) : Int)
    ++ "~".toList ++ item.value ++ "\n".toList

/-- Loop of `conf_file::_find_item_by_hash`: `index` counts the items passed. -/
def _find_item_by_hash.loop (hash : Str) : List conff_item → Int → Int
  | [], _ => -1
  | item :: rest, index =>
    if item.hash = hash then index else _find_item_by_hash.loop hash rest (index + 1)

/-- Method `conf_file::_find_item_by_hash`: index of the first item with that
hash, `-1` when there is none. -/
def _find_item_by_hash (self : conf_file) (hash : Str) : Int :=
  _find_item_by_hash.loop hash self._items 0

/-- Method `conf_file::_find_item_by_name`. -/
def _find_item_by_name (hash : Str → Str) (self : conf_file) (name : Str) : Int :=
  _find_item_by_hash self (hash name)

/-- Lambda `load_header` of `conf_file::open`. -/
def load_header (self : conf_file) (_text : Str) : Except Exn (Bool × conf_file) :=
  match Split _text ':' with
  | [header0, header1] =>
    if header0 ≠ "@conff".toList then .ok (false, self)
    else if !is_integer header1 then .ok (false, self)
    else
      match stoi header1 with
      | .error e => .error e
      | .ok v => .ok (true, { self with _version := v })
  | _ => .ok (false, self)

/-- Body of `while(!file.eof())` in `conf_file::open`, over the lines that
`getline` delivers; after the last line the file name is recorded and `true`
returned. -/
def open_.loop (ULONG_MAX : Nat) (file_name : Str) :
    List Str → Bool → conf_file → Outcome Bool
  | [], _, self => .returned true { self with _file_name := file_name }
  | line :: rest, first, self =>
    if line = [] then open_.loop ULONG_MAX file_name rest first self
    else if first then
      match load_header self line with
      | .error e => .raised e self
      | .ok (false, self1) => .returned false self1
      | .ok (true, self1) => open_.loop ULONG_MAX file_name rest false self1
    else
      match _item_from_text ULONG_MAX line with
      | .error e => .raised e self
      | .ok item =>
        if item.hash = [] then open_.loop ULONG_MAX file_name rest first self
        else open_.loop ULONG_MAX file_name rest first
          { self with _items := self._items ++ [item] }

/-- Method `conf_file::open` (`open` alone is a keyword here, hence the underscore):
the state is reset when the store is bound to a file, the stream is opened, and the
lines are read. -/
def open_ (ULONG_MAX : Nat) (fs : FileSystem) (self : conf_file) (file_name : Str) :
    Outcome Bool :=
  let self1 : conf_file :=
    if self._file_name ≠ [] then { _version := -1, _file_name := [], _items := [] }
    else self
  match fs.content file_name with
  | none => .returned false self1
  | some content => open_.loop ULONG_MAX file_name (getlines content) true self1

/-- Method `conf_file::create_and_open`. -/
def create_and_open (ULONG_MAX : Nat) (fs : FileSystem) (self : conf_file)
    (file_name : Str) : Outcome Bool × FileSystem :=
  if !fs.writable file_name then (.returned false self, fs)
  else
    let fs1 := fs.write file_name ("@conff:".toList ++ to_string CONFF_VERSION ++ "\n".toList)
    (open_ ULONG_MAX fs1 self file_name, fs1)

/-- Method `conf_file::save`. -/
def save (fs : FileSystem) (self : conf_file) : Bool × conf_file × FileSystem :=
  if self._file_name = [] then (false, self, fs)
  else if !fs.writable self._file_name then (false, self, fs)
  else
    (true, self, fs.write self._file_name
      ("@conff:".toList ++ to_string CONFF_VERSION ++ "\n".toList
        ++ (self._items.map _text_from_item).flatten))

/-- Method `conf_file::set_string`. -/
def set_string (hash : Str → Str) (self : conf_file) (config_name : Str) (text : Str) :
    Bool × conf_file :=
  let index := _find_item_by_name hash self config_name
  if index < 0 then
    (true, { self with _items := self._items ++
      [{ hash := hash config_name, type := CONFF_ITEM_TYPE.TEXT, value := text }] })
  else
    let items := self._items.modify
      (fun item => { item with type := CONFF_ITEM_TYPE.TEXT, value := text }) index.toNat
    (true, { self with _items := items })

/-- Method `conf_file::set_int`. -/
def set_int (hash : Str → Str) (self : conf_file) (config_name : Str) (value : Int) :
    Bool × conf_file :=
  let index := _find_item_by_name hash self config_name
  if index < 0 then
    (true, { self with _items := self._items ++
      [{ hash := hash config_name, type := CONFF_ITEM_TYPE.INTEGER, value := to_string value }] })
  else
    let items := self._items.modify
      (fun item => { item with type := CONFF_ITEM_TYPE.INTEGER, value := to_string value })
      index.toNat
    (true, { self with _items := items })

/-- Method `conf_file::delete_config`. -/
def delete_config (hash : Str → Str) (self : conf_file) (config_name : Str) :
    Bool × conf_file :=
  let index := _find_item_by_name hash self config_name
  if index < 0 then (false, self)
  else (true, { self with _items := self._items.eraseIdx index.toNat })

/-- Method `conf_file::get_string`. -/
def get_string (hash : Str → Str) (self : conf_file) (config_name : Str) : Str :=
  let index := _find_item_by_name hash self config_name
  if index < 0 then STR_ERROR
  else (self._items.getD index.toNat {}).value

/-- Method `conf_file::get_int`. -/
def get_int (hash : Str → Str) (self : conf_file) (config_name : Str) : Except Exn Int :=
  let index := _find_item_by_name hash self config_name
  if index < 0 then .ok INT_ERROR
  else if !is_integer (self._items.getD index.toNat {}).value then .ok INT_ERROR
  else stoi (self._items.getD index.toNat {}).value

/-! ## A stand-in for the hash of `md5.h` -/

/-- Modelled from the spec: the name hash of `md5.h`, which is not among the
sources.  The spec asks only for a deterministic function to a fixed-length
printable string (32 lowercase hexadecimal characters in the reference); this
one writes the character codes of the name in hexadecimal, pads with `0` and
keeps 32 characters. -/
def hex_digest (name : Str) : Str :=
  ((name.flatMap fun c => [Nat.digitChar (c.toNat / 16 % 16), Nat.digitChar (c.toNat % 16)])
    ++ List.replicate 32 '0').take 32

/-- A string of exactly 32 lowercase hexadecimal characters. -/
def is_hex_digest (h : Str) : Prop :=
  h.length = 32 ∧ ∀ c ∈ h, c.isDigit = true ∨ ('a' ≤ c ∧ c ≤ 'f')

instance (h : Str) : Decidable (is_hex_digest h) := by
  unfold is_hex_digest; infer_instance

/-- File system holding one readable and writable file. -/
def single_file (p : Str) (data : Str) : FileSystem :=
  { content := fun q => if q = p then some data else none,
    writable := fun q => decide (q = p) }


/-! ## Vocabulary of the statements -/

/-- Test used by the scan of `_find_item_by_hash`. -/
def has_hash (h : Str) (item : conff_item) : Bool := decide (item.hash = h)

/-- Table after `set_string` / `set_int` on digest `h`: the first item with that
digest gets the new kind and value, or a new item is appended. -/
def upsert (h : Str) (ty : CONFF_ITEM_TYPE) (v : Str) : List conff_item → List conff_item
  | [] => [{ hash := h, type := ty, value := v }]
  | item :: rest =>
    if item.hash = h then { item with type := ty, value := v } :: rest
    else item :: upsert h ty v rest

/-- Items that the line format can carry: the digest is not empty and has no
space, the digest and the value have no `~` and no newline, and the kind fits
the 16 bits of `unsigned short`. -/
def clean_item (item : conff_item) : Prop :=
  item.hash ≠ [] ∧ (∀ c ∈ item.hash, c ≠ ' ' ∧ c ≠ '~' ∧ c ≠ '\n') ∧
    (∀ c ∈ item.value, c ≠ '~' ∧ c ≠ '\n') ∧ item.type < 65536

/-- Line written for an item, without the final newline. -/
def item_line (item : conff_item) : Str :=
  "$config ".toList ++ item.hash ++ " ".toList ++ to_string ((item.type % 65536 : Nat) : Int)
    ++ "~".toList ++ item.value

/-- Text that `save` writes: the header line and one line per item. -/
def saved_text (items : List conff_item) : Str :=
  "@conff:".toList ++ to_string CONFF_VERSION ++ "\n".toList
    ++ (items.map _text_from_item).flatten

/-- Table that `open` starts from: emptied when the store was bound to a file,
kept otherwise. -/
def kept_items (s : conf_file) : List conff_item :=
  if s._file_name ≠ [] then [] else s._items

/-- Texts free of the value separator and of the line end. -/
def plain_text (t : Str) : Prop := ∀ c ∈ t, c ≠ '~' ∧ c ≠ '\n'

/-- One call of a sequence of `set_string` / `set_int` calls. -/
inductive SetOp where
  | set_string (config_name : Str) (text : Str)
  | set_int (config_name : Str) (value : Int)
deriving DecidableEq, Repr

/-- Name that the call is made on. -/
def SetOp.name : SetOp → Str
  | .set_string n _ => n
  | .set_int n _ => n

/-- The text of a `set_string` call has no `~` and no newline (nothing is asked of
a `set_int` call). -/
def SetOp.plain : SetOp → Prop
  | .set_string _ t => plain_text t
  | .set_int _ _ => True

/-- Store after the call. -/
def SetOp.run (hash : Str → Str) (s : conf_file) : SetOp → conf_file
  | .set_string n t => (cf.set_string hash s n t).2
  | .set_int n v => (cf.set_int hash s n v).2

/-- Store after a sequence of calls, made in order. -/
def run_ops (hash : Str → Str) (s : conf_file) (ops : List SetOp) : conf_file :=
  ops.foldl (SetOp.run hash) s

/-- Largest `unsigned long` where it has 64 bits. -/
def ULONG_MAX_64 : Nat := 18446744073709551615

/-- Line of a file after its header, as a test writes it: an item line
`$config <digest> <kind>~<value>` or any other text. -/
inductive FileLine where
  | item (digest kind value : Str)
  | garbage (text : Str)
deriving DecidableEq, Repr

/-- Characters of the line. -/
def FileLine.text : FileLine → Str
  | .item d k v => "$config ".toList ++ d ++ " ".toList ++ k ++ "~".toList ++ v
  | .garbage t => t

/-- Tells the item lines from the garbage lines. -/
def FileLine.is_item : FileLine → Bool
  | .item _ _ _ => true
  | .garbage _ => false

/-- The item line is well formed (digest not empty, free of spaces and `~`, kind
`0` or `1`, value free of `~`), the garbage line is not blank and has no `~`;
being lines, neither holds a newline. -/
def FileLine.admissible : FileLine → Prop
  | .item d k v => d ≠ [] ∧ ' ' ∉ d ∧ '~' ∉ d ∧ '\n' ∉ d ∧ (k = "0".toList ∨ k = "1".toList)
      ∧ '~' ∉ v ∧ '\n' ∉ v
  | .garbage t => t ≠ [] ∧ '~' ∉ t ∧ '\n' ∉ t

/-- Lines joined by newlines, none after the last. -/
def join_lines : List Str → Str
  | [] => []
  | [l] => l
  | l :: ls => l ++ '\n' :: join_lines ls

/-- File made of the header `@conff:1000` and the given lines, the last line
ended by a newline or not. -/
def file_text (ls : List FileLine) (final_newline : Bool) : Str :=
  join_lines ("@conff:1000".toList :: ls.map FileLine.text)
    ++ (if final_newline then "\n".toList else [])

instance (t : Str) : Decidable (plain_text t) := by
  unfold plain_text; infer_instance

instance : (op : SetOp) → Decidable op.plain
  | .set_string _ t => inferInstanceAs (Decidable (plain_text t))
  | .set_int _ _ => inferInstanceAs (Decidable True)

instance : (l : FileLine) → Decidable l.admissible
  | .item d k v => inferInstanceAs (Decidable (d ≠ [] ∧ ' ' ∉ d ∧ '~' ∉ d ∧ '\n' ∉ d
      ∧ (k = "0".toList ∨ k = "1".toList) ∧ '~' ∉ v ∧ '\n' ∉ v))
  | .garbage t => inferInstanceAs (Decidable (t ≠ [] ∧ '~' ∉ t ∧ '\n' ∉ t))

/-- Store states that a program reaches from a freshly constructed store by calls of
the public operations that return; `admits` tells which file contents `open` may
be given to read (`create_and_open` reads the header that it wrote itself). -/
inductive Reachable (hash : Str → Str) (ULONG_MAX : Nat) (admits : Str → Prop) :
    conf_file → Prop where
  | fresh : Reachable hash ULONG_MAX admits conf_file.conf_file
  | open_ (s s1 : conf_file) (fs : FileSystem) (p : Str) (b : Bool) :
      Reachable hash ULONG_MAX admits s →
      (∀ content, fs.content p = some content → admits content) →
      cf.open_ ULONG_MAX fs s p = .returned b s1 →
      Reachable hash ULONG_MAX admits s1
  | create_and_open (s s1 : conf_file) (fs : FileSystem) (p : Str) (b : Bool) :
      Reachable hash ULONG_MAX admits s →
      (cf.create_and_open ULONG_MAX fs s p).1 = .returned b s1 →
      Reachable hash ULONG_MAX admits s1
  | set_string (s : conf_file) (name text : Str) :
      Reachable hash ULONG_MAX admits s →
      Reachable hash ULONG_MAX admits (cf.set_string hash s name text).2
  | set_int (s : conf_file) (name : Str) (value : Int) :
      Reachable hash ULONG_MAX admits s →
      Reachable hash ULONG_MAX admits (cf.set_int hash s name value).2
  | delete_config (s : conf_file) (name : Str) :
      Reachable hash ULONG_MAX admits s →
      Reachable hash ULONG_MAX admits (cf.delete_config hash s name).2
  | save (s : conf_file) (fs : FileSystem) :
      Reachable hash ULONG_MAX admits s →
      Reachable hash ULONG_MAX admits (cf.save fs s).2.1

/-- Every file content. -/
def any_file (_content : Str) : Prop := True

/-- File contents none of whose lines holds a `~`: no line of such a file decodes to
an item. -/
def no_item_line (content : Str) : Prop := ∀ l ∈ getlines content, '~' ∉ l

/-- What `set_string` / `set_int` on digest `h` do to the table: when no item has
the digest, the item `new_item` is appended; otherwise the length is kept and,
`k` being the first position with the digest, position `k` holds `new_item`
(whose digest is that of the old item) and every other position is as before. -/
def slot_written (old new : List conff_item) (h : Str) (new_item : conff_item) : Prop :=
  ((∀ item ∈ old, item.hash ≠ h) → new = old ++ [new_item]) ∧
  ((∃ item ∈ old, item.hash = h) →
    new.length = old.length ∧
    ∃ (k : Nat) (old_item : conff_item), old[k]? = some old_item ∧ old_item.hash = h ∧
      (∀ (j : Nat) (item : conff_item), j < k → old[j]? = some item → item.hash ≠ h) ∧
      new[k]? = some new_item ∧ new_item.hash = old_item.hash ∧
      ∀ j : Nat, j ≠ k → new[j]? = old[j]?)

/-- Lines that `open` reads as item lines: those after the first non-blank line, which
it reads as the header. -/
def lines_after_header : List Str → List Str
  | [] => []
  | l :: rest => if l = [] then lines_after_header rest else rest

/-- Digest of the item that `open` appends for a line: none when the line does not
decode to an item with a non-empty digest. -/
def digest_of_line (ULONG_MAX : Nat) (l : Str) : Option Str :=
  match _item_from_text ULONG_MAX l with
  | .ok item => if item.hash = [] then none else some item.hash
  | .error _ => none

/-- Digests of the item lines of a file, in the order of the lines. -/
def line_digests (ULONG_MAX : Nat) (content : Str) : List Str :=
  (lines_after_header (getlines content)).filterMap (digest_of_line ULONG_MAX)

/-- The item lines of the file carry digests that differ from each other and from the
digests of the items that `open` keeps in the table of `s` (none when `s` is bound
to a file, the items of `s` otherwise). -/
def distinct_item_lines (ULONG_MAX : Nat) (s : conf_file) (content : Str) : Prop :=
  (line_digests ULONG_MAX content).Nodup ∧
    ∀ d ∈ line_digests ULONG_MAX content, ∀ item ∈ kept_items s, item.hash ≠ d

instance (ULONG_MAX : Nat) (s : conf_file) (content : Str) :
    Decidable (distinct_item_lines ULONG_MAX s content) := by
  unfold distinct_item_lines; infer_instance

/-- Store states that a program reaches from a freshly constructed store by calls of
the public operations that return, when `open` is only given files whose item
lines carry digests different from each other and from those of the items that it
keeps (`create_and_open` reads the header that it wrote itself). -/
inductive ReachableDistinct (hash : Str → Str) (ULONG_MAX : Nat) : conf_file → Prop where
  | fresh : ReachableDistinct hash ULONG_MAX conf_file.conf_file
  | open_ (s s1 : conf_file) (fs : FileSystem) (p : Str) (b : Bool) :
      ReachableDistinct hash ULONG_MAX s →
      (∀ content, fs.content p = some content → distinct_item_lines ULONG_MAX s content) →
      cf.open_ ULONG_MAX fs s p = .returned b s1 →
      ReachableDistinct hash ULONG_MAX s1
  | create_and_open (s s1 : conf_file) (fs : FileSystem) (p : Str) (b : Bool) :
      ReachableDistinct hash ULONG_MAX s →
      (cf.create_and_open ULONG_MAX fs s p).1 = .returned b s1 →
      ReachableDistinct hash ULONG_MAX s1
  | set_string (s : conf_file) (name text : Str) :
      ReachableDistinct hash ULONG_MAX s →
      ReachableDistinct hash ULONG_MAX (cf.set_string hash s name text).2
  | set_int (s : conf_file) (name : Str) (value : Int) :
      ReachableDistinct hash ULONG_MAX s →
      ReachableDistinct hash ULONG_MAX (cf.set_int hash s name value).2
  | delete_config (s : conf_file) (name : Str) :
      ReachableDistinct hash ULONG_MAX s →
      ReachableDistinct hash ULONG_MAX (cf.delete_config hash s name).2
  | save (s : conf_file) (fs : FileSystem) :
      ReachableDistinct hash ULONG_MAX s →
      ReachableDistinct hash ULONG_MAX (cf.save fs s).2.1

/-! # Lemmas -/

/-! ## Lookup by hash -/

theorem find_loop_eq (h : Str) (items : List conff_item) (k : Int) :
    _find_item_by_hash.loop h items k =
      if items.findIdx (has_hash h) < items.length
      then k + (items.findIdx (has_hash h) : Int) else -1 := by
  induction items generalizing k with
  | nil => simp [_find_item_by_hash.loop]
  | cons a rest ih =>
    by_cases ha : a.hash = h
    · simp [_find_item_by_hash.loop, ha, List.findIdx_cons, has_hash]
    · simp only [_find_item_by_hash.loop, ha, if_false, ih, List.findIdx_cons, has_hash,
        decide_False, cond_false, List.length_cons, Nat.add_lt_add_iff_right]
      split
      · simp; omega
      · simp

theorem find_neg_iff (hash : Str → Str) (s : conf_file) (n : Str) :
    _find_item_by_name hash s n < 0 ↔ s._items.find? (has_hash (hash n)) = none := by
  unfold _find_item_by_name _find_item_by_hash
  rw [find_loop_eq]
  rw [List.find?_eq_none]
  split
  · rename_i hlt
    have := List.findIdx_lt_length.1 hlt
    constructor
    · intro h; omega
    · intro h; obtain ⟨x, hx, hpx⟩ := this; exact absurd hpx (h x hx)
  · rename_i hlt
    constructor
    · intro _ x hx hpx; exact hlt (List.findIdx_lt_length.2 ⟨x, hx, hpx⟩)
    · intro _; omega

theorem find_toNat (hash : Str → Str) (s : conf_file) (n : Str)
    (h : ¬ _find_item_by_name hash s n < 0) :
    (_find_item_by_name hash s n).toNat = s._items.findIdx (has_hash (hash n)) := by
  unfold _find_item_by_name _find_item_by_hash at *
  rw [find_loop_eq] at *
  split at h
  · rw [if_pos (by assumption)]; simp
  · omega

theorem getD_findIdx (p : conff_item → Bool) (d : conff_item) (items : List conff_item) :
    items.getD (items.findIdx p) d = (items.find? p).getD d := by
  induction items with
  | nil => simp
  | cons a rest ih =>
    by_cases ha : p a = true
    · simp [List.findIdx_cons, ha]
    · have ih1 : rest[List.findIdx p rest]?.getD d = (List.find? p rest).getD d := by
        simpa using ih
      simp [List.findIdx_cons, ha, ih1]

theorem modify_findIdx (h : Str) (ty : CONFF_ITEM_TYPE) (v : Str) (items : List conff_item)
    (hex : items.find? (has_hash h) ≠ none) :
    items.modify (fun item => { item with type := ty, value := v }) (items.findIdx (has_hash h))
      = upsert h ty v items := by
  induction items with
  | nil => simp at hex
  | cons a rest ih =>
    by_cases ha : a.hash = h
    · simp [List.findIdx_cons, has_hash, ha, upsert]
    · have hex1 : rest.find? (has_hash h) ≠ none := by
        simpa [List.find?_cons, has_hash, ha] using hex
      have := ih hex1
      simp [List.findIdx_cons, has_hash, ha, upsert] at this ⊢
      exact this

theorem upsert_of_none (h : Str) (ty : CONFF_ITEM_TYPE) (v : Str) (items : List conff_item)
    (hno : items.find? (has_hash h) = none) :
    upsert h ty v items = items ++ [{ hash := h, type := ty, value := v }] := by
  induction items with
  | nil => rfl
  | cons a rest ih =>
    by_cases ha : a.hash = h
    · simp [List.find?_cons, has_hash, ha] at hno
    · have hno1 : rest.find? (has_hash h) = none := by
        simpa [List.find?_cons, has_hash, ha] using hno
      simp [upsert, ha, ih hno1]

theorem eraseIdx_findIdx (p : conff_item → Bool) (items : List conff_item) :
    items.eraseIdx (items.findIdx p) = items.eraseP p := by
  induction items with
  | nil => simp
  | cons a rest ih =>
    by_cases ha : p a = true
    · simp [List.findIdx_cons, ha]
    · simp [List.findIdx_cons, ha, ih]

/-! ## The operations in terms of the table -/

theorem set_string_eq (hash : Str → Str) (s : conf_file) (n t : Str) :
    set_string hash s n t =
      (true, { s with _items := upsert (hash n) CONFF_ITEM_TYPE.TEXT t s._items }) := by
  unfold set_string
  by_cases hneg : _find_item_by_name hash s n < 0
  · simp only [hneg, if_true]
    rw [upsert_of_none _ _ _ _ ((find_neg_iff hash s n).1 hneg)]
  · simp only [hneg, if_false]
    rw [find_toNat hash s n hneg, modify_findIdx]
    exact fun h => hneg ((find_neg_iff hash s n).2 h)

theorem set_int_eq (hash : Str → Str) (s : conf_file) (n : Str) (v : Int) :
    set_int hash s n v =
      (true, { s with _items := upsert (hash n) CONFF_ITEM_TYPE.INTEGER (to_string v) s._items }) := by
  unfold set_int
  by_cases hneg : _find_item_by_name hash s n < 0
  · simp only [hneg, if_true]
    rw [upsert_of_none _ _ _ _ ((find_neg_iff hash s n).1 hneg)]
  · simp only [hneg, if_false]
    rw [find_toNat hash s n hneg, modify_findIdx]
    exact fun h => hneg ((find_neg_iff hash s n).2 h)

theorem get_string_eq (hash : Str → Str) (s : conf_file) (n : Str) :
    get_string hash s n =
      match s._items.find? (has_hash (hash n)) with
      | none => STR_ERROR
      | some item => item.value := by
  unfold get_string
  by_cases hneg : _find_item_by_name hash s n < 0
  · simp only [hneg, if_true]
    rw [(find_neg_iff hash s n).1 hneg]
  · simp only [hneg, if_false]
    rw [find_toNat hash s n hneg, getD_findIdx]
    have : s._items.find? (has_hash (hash n)) ≠ none :=
      fun h => hneg ((find_neg_iff hash s n).2 h)
    cases hf : s._items.find? (has_hash (hash n)) with
    | none => exact absurd hf this
    | some item => simp

theorem get_int_eq (hash : Str → Str) (s : conf_file) (n : Str) :
    get_int hash s n =
      match s._items.find? (has_hash (hash n)) with
      | none => .ok INT_ERROR
      | some item => if is_integer item.value then stoi item.value else .ok INT_ERROR := by
  unfold get_int
  by_cases hneg : _find_item_by_name hash s n < 0
  · simp only [hneg, if_true]
    rw [(find_neg_iff hash s n).1 hneg]
  · simp only [hneg, if_false]
    rw [find_toNat hash s n hneg, getD_findIdx]
    have : s._items.find? (has_hash (hash n)) ≠ none :=
      fun h => hneg ((find_neg_iff hash s n).2 h)
    cases hf : s._items.find? (has_hash (hash n)) with
    | none => exact absurd hf this
    | some item =>
      simp only [Option.getD_some]
      cases is_integer item.value <;> simp

theorem delete_config_eq (hash : Str → Str) (s : conf_file) (n : Str) :
    delete_config hash s n =
      match s._items.find? (has_hash (hash n)) with
      | none => (false, s)
      | some _ => (true, { s with _items := s._items.eraseP (has_hash (hash n)) }) := by
  unfold delete_config
  by_cases hneg : _find_item_by_name hash s n < 0
  · simp only [hneg, if_true]
    rw [(find_neg_iff hash s n).1 hneg]
  · simp only [hneg, if_false]
    rw [find_toNat hash s n hneg, eraseIdx_findIdx]
    have : s._items.find? (has_hash (hash n)) ≠ none :=
      fun h => hneg ((find_neg_iff hash s n).2 h)
    cases hf : s._items.find? (has_hash (hash n)) with
    | none => exact absurd hf this
    | some item => rfl

theorem find_upsert_same (h : Str) (ty : CONFF_ITEM_TYPE) (v : Str) (items : List conff_item) :
    ∃ item, (upsert h ty v items).find? (has_hash h) = some item ∧ item.value = v
      ∧ item.type = ty ∧ item.hash = h := by
  induction items with
  | nil => exact ⟨{ hash := h, type := ty, value := v }, by simp [upsert, has_hash], rfl, rfl, rfl⟩
  | cons a rest ih =>
    by_cases ha : a.hash = h
    · exact ⟨{ a with type := ty, value := v }, by simp [upsert, ha, has_hash], rfl, rfl, ha⟩
    · obtain ⟨item, h1, h2⟩ := ih
      exact ⟨item, by simp [upsert, ha, has_hash, List.find?_cons]; simpa [has_hash] using h1, h2⟩

theorem length_upsert_of_some (h : Str) (ty : CONFF_ITEM_TYPE) (v : Str)
    (items : List conff_item) (hex : items.find? (has_hash h) ≠ none) :
    (upsert h ty v items).length = items.length := by
  induction items with
  | nil => simp at hex
  | cons a rest ih =>
    by_cases ha : a.hash = h
    · simp [upsert, ha]
    · have hex1 : rest.find? (has_hash h) ≠ none := by
        simpa [List.find?_cons, has_hash, ha] using hex
      simp [upsert, ha, ih hex1]

/-! ## Decimal texts -/

theorem digitChar_isDigit (d : Nat) (h : d < 10) :
    (Nat.digitChar d).isDigit = true ∧ digit_value (Nat.digitChar d) = d := by
  interval_cases d <;> exact ⟨by decide, by decide⟩

theorem decimal_value_append (pre : Str) (c : Char) :
    decimal_value (pre ++ [c]) = 10 * decimal_value pre + digit_value c := by
  simp [decimal_value, List.foldl_append]

theorem toDigitsCore_spec (fuel : Nat) : ∀ (n : Nat) (ds : Str), n < fuel →
    ∃ pre : Str, Nat.toDigitsCore 10 fuel n ds = pre ++ ds ∧ pre ≠ [] ∧
      (∀ c ∈ pre, c.isDigit = true) ∧ decimal_value pre = n := by
  induction fuel with
  | zero => intro n ds h; omega
  | succ fuel ih =>
    intro n ds h
    have hd := digitChar_isDigit (n % 10) (Nat.mod_lt _ (by decide))
    by_cases h0 : n / 10 = 0
    · refine ⟨[Nat.digitChar (n % 10)], ?_, by simp, ?_, ?_⟩
      · simp [Nat.toDigitsCore, h0]
      · intro c hc
        simp only [List.mem_singleton] at hc
        rw [hc]; exact hd.1
      · simp only [decimal_value, List.foldl_cons, List.foldl_nil, hd.2]
        omega
    · obtain ⟨pre, h1, _, h3, h4⟩ := ih (n / 10) (Nat.digitChar (n % 10) :: ds) (by omega)
      refine ⟨pre ++ [Nat.digitChar (n % 10)], ?_, by simp, ?_, ?_⟩
      · simp [Nat.toDigitsCore, h0, h1]
      · intro c hc
        rcases List.mem_append.1 hc with hc | hc
        · exact h3 c hc
        · simp only [List.mem_singleton] at hc
          rw [hc]; exact hd.1
      · rw [decimal_value_append, h4, hd.2]; omega

theorem toDigits_spec (n : Nat) :
    Nat.toDigits 10 n ≠ [] ∧ (∀ c ∈ Nat.toDigits 10 n, c.isDigit = true) ∧
      decimal_value (Nat.toDigits 10 n) = n := by
  obtain ⟨pre, h1, h2, h3, h4⟩ := toDigitsCore_spec (n + 1) n [] (by omega)
  have : Nat.toDigits 10 n = pre := by simp [Nat.toDigits, h1]
  rw [this]; exact ⟨h2, h3, h4⟩

theorem is_integer_iff (t : Str) :
    is_integer t = true ↔ t ≠ [] ∧ ∀ c ∈ t, c.isDigit = true := by
  unfold is_integer
  by_cases h : t = []
  · simp [h]
  · simp [h, List.all_eq_true]

theorem is_integer_toDigits (n : Nat) : is_integer (Nat.toDigits 10 n) = true :=
  (is_integer_iff _).2 ⟨(toDigits_spec n).1, (toDigits_spec n).2.1⟩

theorem isDigit_not_space (c : Char) (h : c.isDigit = true) :
    isspace c = false ∧ c ≠ '-' ∧ c ≠ '+' := by
  refine ⟨?_, ?_, ?_⟩
  · cases hs : isspace c with
    | false => rfl
    | true =>
      simp only [isspace, Bool.or_eq_true, decide_eq_true_eq] at hs
      rcases hs with ((((hs | hs) | hs) | hs) | hs) | hs <;> (rw [hs] at h; exact absurd h (by decide))
  · intro hc; rw [hc] at h; exact absurd h (by decide)
  · intro hc; rw [hc] at h; exact absurd h (by decide)

theorem takeWhile_all (p : Char → Bool) (t : Str) (h : ∀ c ∈ t, p c = true) :
    t.takeWhile p = t := by
  induction t with
  | nil => rfl
  | cons a r ih =>
    simp [List.takeWhile_cons, h a (List.mem_cons_self _ _),
      ih (fun c hc => h c (List.mem_cons_of_mem _ hc))]

theorem scan_number_digits (t : Str) (h : is_integer t = true) :
    scan_number t = (false, t) := by
  obtain ⟨hne, hall⟩ := (is_integer_iff t).1 h
  cases t with
  | nil => exact absurd rfl hne
  | cons a r =>
    have ha := isDigit_not_space a (hall a (List.mem_cons_self _ _))
    have hdrop : (a :: r).dropWhile isspace = a :: r := by
      simp [List.dropWhile_cons, ha.1]
    unfold scan_number
    rw [hdrop]
    split
    · rename_i heq; injection heq with h1 _; exact absurd h1 ha.2.1
    · rename_i heq; injection heq with h1 _; exact absurd h1 ha.2.2
    · rw [takeWhile_all _ _ hall]

theorem stoi_digits (t : Str) (h : is_integer t = true) :
    stoi t = if INT_MAX < (decimal_value t : Int) then .error .out_of_range
      else .ok (decimal_value t : Int) := by
  obtain ⟨hne, _⟩ := (is_integer_iff t).1 h
  unfold stoi
  rw [scan_number_digits t h]
  cases t with
  | nil => exact absurd rfl hne
  | cons a r =>
    simp only [Bool.false_eq_true, if_false]
    have : ¬ ((decimal_value (a :: r) : Int) < INT_MIN) := by
      unfold INT_MIN; omega
    simp [this]

theorem stoul_digits (U : Nat) (t : Str) (h : is_integer t = true) :
    stoul U t = if U < decimal_value t then .error .out_of_range
      else .ok (decimal_value t) := by
  obtain ⟨hne, _⟩ := (is_integer_iff t).1 h
  unfold stoul
  rw [scan_number_digits t h]
  cases t with
  | nil => exact absurd rfl hne
  | cons a r => simp

theorem to_string_nat (n : Nat) : to_string (n : Int) = Nat.toDigits 10 n := rfl

theorem get_int_to_string (n : Nat) (h : (n : Int) ≤ INT_MAX) :
    is_integer (to_string (n : Int)) = true ∧ stoi (to_string (n : Int)) = .ok (n : Int) := by
  rw [to_string_nat]
  refine ⟨is_integer_toDigits n, ?_⟩
  rw [stoi_digits _ (is_integer_toDigits n), (toDigits_spec n).2.2]
  simp [not_lt.2 h]

/-! ## Cutting a text at a separator -/

theorem cut_append_of_not_mem (sep : Char) (a : Str) (hsep : sep ∉ a) (rest cur : Str) :
    cut sep (a ++ rest) cur = cut sep rest (a.reverse ++ cur) := by
  induction a generalizing cur with
  | nil => rfl
  | cons c cs ih =>
    have hc : c ≠ sep := fun h => hsep (h ▸ List.mem_cons_self _ _)
    have hcs : sep ∉ cs := fun h => hsep (List.mem_cons_of_mem _ h)
    have h1 : cut sep (c :: (cs ++ rest)) cur = cut sep (cs ++ rest) (c :: cur) := by
      simp [cut, hc]
    rw [List.cons_append, h1, ih hcs]
    simp

theorem cut_fragment (sep : Char) (a : Str) (hsep : sep ∉ a) (rest : Str) :
    cut sep (a ++ sep :: rest) [] = a :: cut sep rest [] := by
  rw [cut_append_of_not_mem sep a hsep]
  simp [cut]

theorem cut_last (sep : Char) (a : Str) (hsep : sep ∉ a) : cut sep a [] = [a] := by
  have := cut_append_of_not_mem sep a hsep [] []
  simp only [List.append_nil] at this
  rw [this]; simp [cut]

theorem cut_mem (sep : Char) : ∀ (t cur : Str), sep ∉ cur → ∀ f ∈ cut sep t cur,
    sep ∉ f ∧ ∀ c ∈ f, c ∈ cur ∨ c ∈ t := by
  intro t
  induction t with
  | nil =>
    intro cur hcur f hf
    simp only [cut, List.mem_singleton] at hf
    subst hf
    exact ⟨by simpa using hcur, fun c hc => Or.inl (by simpa using hc)⟩
  | cons a r ih =>
    intro cur hcur f hf
    by_cases ha : a = sep
    · simp only [cut, ha, if_true, List.mem_cons] at hf
      rcases hf with hf | hf
      · subst hf
        exact ⟨by simpa using hcur, fun c hc => Or.inl (by simpa using hc)⟩
      · obtain ⟨h1, h2⟩ := ih [] (by simp) f hf
        refine ⟨h1, fun c hc => ?_⟩
        rcases h2 c hc with h | h
        · simp at h
        · exact Or.inr (List.mem_cons_of_mem _ h)
    · simp only [cut, ha, if_false] at hf
      have hcur1 : sep ∉ a :: cur := by
        intro h
        rcases List.mem_cons.1 h with h | h
        · exact ha h.symm
        · exact hcur h
      obtain ⟨h1, h2⟩ := ih (a :: cur) hcur1 f hf
      refine ⟨h1, fun c hc => ?_⟩
      rcases h2 c hc with h | h
      · rcases List.mem_cons.1 h with h | h
        · exact Or.inr (h ▸ List.mem_cons_self _ _)
        · exact Or.inl h
      · exact Or.inr (List.mem_cons_of_mem _ h)

theorem Split_mem (sep : Char) (t f : Str) (hf : f ∈ Split t sep) :
    sep ∉ f ∧ ∀ c ∈ f, c ∈ t := by
  unfold Split at hf
  split at hf
  · simp at hf
  · obtain ⟨h1, h2⟩ := cut_mem sep t [] (by simp) f hf
    exact ⟨h1, fun c hc => (h2 c hc).resolve_left (by simp)⟩

theorem getlines_mem (content f : Str) (hf : f ∈ getlines content) : '\n' ∉ f :=
  (cut_mem '\n' content [] (by simp) f hf).1

/-! ## Encoding and decoding one item -/

theorem text_from_item_eq (item : conff_item) :
    _text_from_item item = item_line item ++ ['\n'] := by
  simp [_text_from_item, item_line]

theorem digits_no_sep (n : Nat) (c : Char) (hc : c ∈ Nat.toDigits 10 n) :
    c ≠ ' ' ∧ c ≠ '~' ∧ c ≠ '\n' := by
  have h := (toDigits_spec n).2.1 c hc
  refine ⟨?_, ?_, ?_⟩ <;> (intro hc; rw [hc] at h; exact absurd h (by decide))

theorem item_line_no_newline (item : conff_item) (h : clean_item item) :
    '\n' ∉ item_line item := by
  obtain ⟨_, h2, h3, _⟩ := h
  intro hm
  simp only [item_line, to_string_nat, List.mem_append] at hm
  rcases hm with ((((hm | hm) | hm) | hm) | hm) | hm
  · revert hm; decide
  · exact (h2 _ hm).2.2 rfl
  · revert hm; decide
  · exact (digits_no_sep _ _ hm).2.2 rfl
  · revert hm; decide
  · exact (h3 _ hm).2 rfl

theorem item_line_ne_nil (item : conff_item) : item_line item ≠ [] := by
  simp [item_line]

theorem item_from_text_line (U : Nat) (item : conff_item) (h : clean_item item)
    (hU : item.type ≤ U) : _item_from_text U (item_line item) = .ok item := by
  obtain ⟨h1, h2, h3, h4⟩ := h
  have hmod : item.type % 65536 = item.type := Nat.mod_eq_of_lt h4
  -- the line splits at its only `~`
  have hpre : '~' ∉ "$config ".toList ++ item.hash ++ " ".toList
      ++ Nat.toDigits 10 item.type := by
    intro hm
    simp only [List.mem_append] at hm
    rcases hm with ((hm | hm) | hm) | hm
    · revert hm; decide
    · exact (h2 _ hm).2.1 rfl
    · revert hm; decide
    · exact (digits_no_sep _ _ hm).2.1 rfl
  have hval : '~' ∉ item.value := fun hm => (h3 _ hm).1 rfl
  have hsplit1 : Split (item_line item) '~' =
      ["$config ".toList ++ item.hash ++ " ".toList ++ Nat.toDigits 10 item.type,
        item.value] := by
    unfold Split
    rw [if_neg (item_line_ne_nil item)]
    have : item_line item = ("$config ".toList ++ item.hash ++ " ".toList
        ++ Nat.toDigits 10 item.type) ++ '~' :: item.value := by
      simp [item_line, to_string_nat, hmod]
    rw [this, cut_fragment _ _ hpre, cut_last _ _ hval]
  -- the part before `~` splits at its two spaces
  have hhash : ' ' ∉ item.hash := fun hm => (h2 _ hm).1 rfl
  have hdig : ' ' ∉ Nat.toDigits 10 item.type := fun hm => (digits_no_sep _ _ hm).1 rfl
  have hsplit2 : Split ("$config ".toList ++ item.hash ++ " ".toList
      ++ Nat.toDigits 10 item.type) ' ' =
      ["$config".toList, item.hash, Nat.toDigits 10 item.type] := by
    unfold Split
    rw [if_neg (by simp)]
    have : "$config ".toList ++ item.hash ++ " ".toList ++ Nat.toDigits 10 item.type
        = "$config".toList ++ ' ' :: (item.hash ++ ' ' :: Nat.toDigits 10 item.type) := by
      simp
    rw [this, cut_fragment _ _ (by decide), cut_fragment _ _ hhash, cut_last _ _ hdig]
  unfold _item_from_text
  simp only [hsplit1, hsplit2]
  have hint := is_integer_toDigits item.type
  have hst : stoul U (Nat.toDigits 10 item.type) = .ok item.type := by
    rw [stoul_digits U _ hint, (toDigits_spec _).2.2, if_neg (not_lt.2 hU)]
  simp [hint, hst, hmod]

/-! ## Loading what `save` wrote -/

theorem cut_item_lines (items : List conff_item) (h : ∀ item ∈ items, clean_item item) :
    cut '\n' (items.map _text_from_item).flatten [] = items.map item_line ++ [[]] := by
  induction items with
  | nil => rfl
  | cons a rest ih =>
    have ha := item_line_no_newline a (h a (List.mem_cons_self _ _))
    have hr := ih (fun item hi => h item (List.mem_cons_of_mem _ hi))
    simp only [List.map_cons, List.flatten_cons, text_from_item_eq, List.append_assoc,
      List.singleton_append, List.cons_append]
    rw [cut_fragment _ _ ha, List.nil_append, hr]

theorem getlines_saved_text (items : List conff_item) (h : ∀ item ∈ items, clean_item item) :
    getlines (saved_text items) = "@conff:1000".toList :: (items.map item_line ++ [[]]) := by
  have hhead : "@conff:".toList ++ to_string CONFF_VERSION = "@conff:1000".toList := by decide
  have : saved_text items
      = "@conff:1000".toList ++ '\n' :: (items.map _text_from_item).flatten := by
    unfold saved_text; rw [hhead]; simp
  unfold getlines
  rw [this, cut_fragment _ _ (by decide), cut_item_lines items h]

theorem load_header_current (s : conf_file) :
    load_header s "@conff:1000".toList = .ok (true, { s with _version := 1000 }) := by
  rfl

theorem loop_item_lines (U : Nat) (hU : 65535 ≤ U) (p : Str) :
    ∀ (items : List conff_item), (∀ item ∈ items, clean_item item) →
    ∀ (rest : List Str) (s : conf_file),
      open_.loop U p (items.map item_line ++ rest) false s =
        open_.loop U p rest false { s with _items := s._items ++ items } := by
  intro items
  induction items with
  | nil => intro _ rest s; simp
  | cons a r ih =>
    intro h rest s
    have ha := h a (List.mem_cons_self _ _)
    have hdec := item_from_text_line U a ha (le_trans (Nat.le_of_lt_succ ha.2.2.2) hU)
    have hne := item_line_ne_nil a
    simp only [List.map_cons, List.cons_append]
    rw [open_.loop]
    simp only [hne, if_false, Bool.false_eq_true, hdec, ha.1]
    rw [ih (fun item hi => h item (List.mem_cons_of_mem _ hi))]
    simp

theorem loop_saved_text (U : Nat) (hU : 65535 ≤ U) (p : Str) (items : List conff_item)
    (h : ∀ item ∈ items, clean_item item) (s : conf_file) :
    open_.loop U p (getlines (saved_text items)) true s = .returned true
      { _version := 1000, _file_name := p, _items := s._items ++ items } := by
  rw [getlines_saved_text items h, open_.loop]
  have hne : "@conff:1000".toList ≠ [] := by decide
  simp only [hne, if_false, if_true, load_header_current]
  rw [loop_item_lines U hU p items h]
  simp [open_.loop]

theorem open_saved_text (U : Nat) (hU : 65535 ≤ U) (fs : FileSystem) (p : Str)
    (items : List conff_item) (h : ∀ item ∈ items, clean_item item)
    (hfs : fs.content p = some (saved_text items)) (s : conf_file) :
    open_ U fs s p = .returned true
      { _version := 1000, _file_name := p, _items := kept_items s ++ items } := by
  unfold open_
  simp only [hfs]
  rw [loop_saved_text U hU p items h]
  unfold kept_items
  split <;> rfl

theorem save_eq (fs : FileSystem) (s : conf_file) (h : (save fs s).1 = true) :
    s._file_name ≠ [] ∧ save fs s = (true, s, fs.write s._file_name (saved_text s._items)) := by
  unfold save at h ⊢
  by_cases h1 : s._file_name = []
  · simp [h1] at h
  · by_cases h2 : fs.writable s._file_name = true
    · simp [h1, h2, saved_text]
    · simp [h1, h2] at h

theorem write_content (fs : FileSystem) (p data : Str) :
    (fs.write p data).content p = some data := by
  simp [FileSystem.write]

/-- Saving a bound store whose items the format can carry, and loading the
file again, gives back the same table. -/
theorem save_open_roundtrip (U : Nat) (hU : 65535 ≤ U) (fs : FileSystem) (s : conf_file)
    (hclean : ∀ item ∈ s._items, clean_item item) (hsave : (save fs s).1 = true)
    (s2 : conf_file) :
    open_ U (save fs s).2.2 s2 s._file_name = .returned true
      { _version := 1000, _file_name := s._file_name, _items := kept_items s2 ++ s._items } := by
  obtain ⟨_, heq⟩ := save_eq fs s hsave
  rw [heq]
  exact open_saved_text U hU _ _ _ hclean (write_content _ _ _) s2

/-! ## Items that the line format can carry -/

theorem item_from_text_clean (U : Nat) (l : Str) (item : conff_item) (hl : '\n' ∉ l)
    (hdec : _item_from_text U l = .ok item) (hne : item.hash ≠ []) : clean_item item := by
  unfold _item_from_text at hdec
  split at hdec
  · rename_i content0 content1 hs1
    have hc0 := Split_mem '~' l content0 (by rw [hs1]; simp)
    have hc1 := Split_mem '~' l content1 (by rw [hs1]; simp)
    split at hdec
    · rename_i info0 info1 info2 hs2
      have hi1 := Split_mem ' ' content0 info1 (by rw [hs2]; simp)
      split at hdec
      · injection hdec with hdec; subst hdec; exact absurd rfl hne
      · split at hdec
        · exact absurd hdec (by simp)
        · rename_i n _
          injection hdec with hdec
          subst hdec
          refine ⟨hne, ?_, ?_, Nat.mod_lt _ (by decide)⟩
          · intro c hc
            refine ⟨?_, ?_, ?_⟩
            · intro h; exact hi1.1 (h ▸ hc)
            · intro h; exact hc0.1 (h ▸ hi1.2 c hc)
            · intro h; exact hl (h ▸ hc0.2 c (hi1.2 c hc))
          · intro c hc
            refine ⟨?_, ?_⟩
            · intro h; exact hc1.1 (h ▸ hc)
            · intro h; exact hl (h ▸ hc1.2 c hc)
    · injection hdec with hdec; subst hdec; exact absurd rfl hne
  · injection hdec with hdec; subst hdec; exact absurd rfl hne

theorem load_header_frame (s s1 : conf_file) (t : Str) (b : Bool)
    (h : load_header s t = .ok (b, s1)) :
    s1._items = s._items ∧ s1._file_name = s._file_name := by
  unfold load_header at h
  split at h
  · split at h
    · injection h with h; injection h with _ h; subst h; exact ⟨rfl, rfl⟩
    · split at h
      · injection h with h; injection h with _ h; subst h; exact ⟨rfl, rfl⟩
      · split at h
        · exact absurd h (by simp)
        · injection h with h; injection h with _ h; subst h; exact ⟨rfl, rfl⟩
  · injection h with h; injection h with _ h; subst h; exact ⟨rfl, rfl⟩

theorem loop_returned_true (U : Nat) (p : Str) :
    ∀ (ls : List Str) (first : Bool) (s s1 : conf_file), (∀ l ∈ ls, '\n' ∉ l) →
      (∀ item ∈ s._items, clean_item item) →
      open_.loop U p ls first s = .returned true s1 →
      s1._file_name = p ∧ ∀ item ∈ s1._items, clean_item item := by
  intro ls
  induction ls with
  | nil =>
    intro first s s1 _ hs h
    simp only [open_.loop, Outcome.returned.injEq, true_and] at h
    subst h
    exact ⟨rfl, hs⟩
  | cons l rest ih =>
    intro first s s1 hls hs h
    have hrest : ∀ l ∈ rest, '\n' ∉ l := fun x hx => hls x (List.mem_cons_of_mem _ hx)
    rw [open_.loop] at h
    split at h
    · exact ih first s s1 hrest hs h
    · split at h
      · split at h
        · exact absurd h (by simp)
        · simp at h
        · rename_i s2 hh
          have hf := load_header_frame s s2 l true hh
          exact ih false s2 s1 hrest (by rw [hf.1]; exact hs) h
      · split at h
        · exact absurd h (by simp)
        · rename_i item hdec
          split at h
          · exact ih first s s1 hrest hs h
          · rename_i hne
            refine ih first _ s1 hrest ?_ h
            intro it hit
            rcases List.mem_append.1 hit with hit | hit
            · exact hs it hit
            · simp only [List.mem_singleton] at hit
              subst hit
              exact item_from_text_clean U l it (hls l (List.mem_cons_self _ _)) hdec hne

theorem open_fresh_clean (U : Nat) (fs : FileSystem) (p : Str) (s0 : conf_file)
    (h : open_ U fs conf_file.conf_file p = .returned true s0) :
    s0._file_name = p ∧ ∀ item ∈ s0._items, clean_item item := by
  cases hc : fs.content p with
  | none => simp [open_, hc] at h
  | some content =>
    have h1 : open_.loop U p (getlines content) true conf_file.conf_file
        = .returned true s0 := by
      simpa [open_, hc, conf_file.conf_file] using h
    refine loop_returned_true U p (getlines content) true _ s0
      (fun l hl => getlines_mem content l hl) ?_ h1
    simp [conf_file.conf_file]

theorem create_and_open_fresh_clean (U : Nat) (fs : FileSystem) (p : Str) (s0 : conf_file)
    (h : (create_and_open U fs conf_file.conf_file p).1 = .returned true s0) :
    s0._file_name = p ∧ ∀ item ∈ s0._items, clean_item item := by
  unfold create_and_open at h
  split at h
  · simp at h
  · exact open_fresh_clean U _ p s0 h

theorem hex_digest_clean (h : Str) (hh : is_hex_digest h) :
    h ≠ [] ∧ ∀ c ∈ h, c ≠ ' ' ∧ c ≠ '~' ∧ c ≠ '\n' := by
  obtain ⟨hlen, hall⟩ := hh
  refine ⟨fun h0 => by rw [h0] at hlen; simp at hlen, fun c hc => ?_⟩
  have hcase := hall c hc
  refine ⟨?_, ?_, ?_⟩ <;>
    (intro h0; rw [h0] at hcase; revert hcase; decide)

theorem to_string_plain (v : Int) : plain_text (to_string v) := by
  intro c hc
  cases v with
  | ofNat n => exact (digits_no_sep n c hc).2
  | negSucc n =>
    simp only [to_string, List.mem_cons] at hc
    rcases hc with hc | hc
    · subst hc; exact ⟨by decide, by decide⟩
    · exact (digits_no_sep _ c hc).2

theorem upsert_clean (h : Str) (ty : CONFF_ITEM_TYPE) (v : Str) (items : List conff_item)
    (hh : h ≠ [] ∧ ∀ c ∈ h, c ≠ ' ' ∧ c ≠ '~' ∧ c ≠ '\n') (hty : ty < 65536)
    (hv : plain_text v) (hitems : ∀ item ∈ items, clean_item item) :
    ∀ item ∈ upsert h ty v items, clean_item item := by
  induction items with
  | nil =>
    intro item hi
    simp only [upsert, List.mem_singleton] at hi
    subst hi
    exact ⟨hh.1, hh.2, hv, hty⟩
  | cons a rest ih =>
    have ha := hitems a (List.mem_cons_self _ _)
    have hr : ∀ item ∈ rest, clean_item item :=
      fun item hi => hitems item (List.mem_cons_of_mem _ hi)
    intro item hi
    by_cases hah : a.hash = h
    · simp only [upsert, hah, if_true, List.mem_cons] at hi
      rcases hi with hi | hi
      · subst hi; exact ⟨hh.1, hh.2, hv, hty⟩
      · exact hr item hi
    · simp only [upsert, hah, if_false, List.mem_cons] at hi
      rcases hi with hi | hi
      · subst hi; exact ha
      · exact ih hr item hi

/-! ## Sequences of `set_string` / `set_int` calls -/

theorem run_op_eq (hash : Str → Str) (s : conf_file) (op : SetOp) :
    ∃ ty v, ty < 65536 ∧ (op.plain → plain_text v) ∧
      SetOp.run hash s op = { s with _items := upsert (hash op.name) ty v s._items } := by
  cases op with
  | set_string n t =>
    exact ⟨CONFF_ITEM_TYPE.TEXT, t, by decide, fun h => h, by
      simp [SetOp.run, set_string_eq, SetOp.name]⟩
  | set_int n v =>
    exact ⟨CONFF_ITEM_TYPE.INTEGER, to_string v, by decide, fun _ => to_string_plain v, by
      simp [SetOp.run, set_int_eq, SetOp.name]⟩

theorem run_ops_clean (hash : Str → Str) (ops : List SetOp)
    (hhash : ∀ op ∈ ops, is_hex_digest (hash op.name)) (hplain : ∀ op ∈ ops, op.plain) :
    ∀ s : conf_file, (∀ item ∈ s._items, clean_item item) →
      (run_ops hash s ops)._file_name = s._file_name ∧
        ∀ item ∈ (run_ops hash s ops)._items, clean_item item := by
  induction ops with
  | nil => intro s hs; exact ⟨rfl, hs⟩
  | cons op rest ih =>
    intro s hs
    obtain ⟨ty, v, hty, hv, heq⟩ := run_op_eq hash s op
    have hstep : ∀ item ∈ (SetOp.run hash s op)._items, clean_item item := by
      rw [heq]
      exact upsert_clean _ ty v s._items
        (hex_digest_clean _ (hhash op (List.mem_cons_self _ _))) hty
        (hv (hplain op (List.mem_cons_self _ _))) hs
    have hname : (SetOp.run hash s op)._file_name = s._file_name := by rw [heq]
    have := ih (fun o ho => hhash o (List.mem_cons_of_mem _ ho))
      (fun o ho => hplain o (List.mem_cons_of_mem _ ho)) (SetOp.run hash s op) hstep
    simp only [run_ops, List.foldl_cons] at this ⊢
    exact ⟨this.1.trans hname, this.2⟩

/-! ## Files written by hand -/

theorem cut_join_lines (tail : Bool) : ∀ (ls : List Str) (l : Str), '\n' ∉ l →
    (∀ x ∈ ls, '\n' ∉ x) →
    cut '\n' (join_lines (l :: ls) ++ (if tail then "\n".toList else [])) []
      = (l :: ls) ++ (if tail then [[]] else []) := by
  intro ls
  induction ls with
  | nil =>
    intro l hl _
    cases tail with
    | false => simpa [join_lines] using cut_last '\n' l hl
    | true =>
      have := cut_fragment '\n' l hl []
      simpa [join_lines, cut] using this
  | cons x rest ih =>
    intro l hl hrest
    have hx := hrest x (List.mem_cons_self _ _)
    have := ih x hx (fun y hy => hrest y (List.mem_cons_of_mem _ hy))
    simp only [join_lines, List.append_assoc, List.cons_append]
    rw [cut_fragment _ _ hl]
    simp only [join_lines, List.append_assoc] at this
    rw [this]
    rfl

theorem loop_step_item (U : Nat) (p : Str) (l : Str) (rest : List Str) (s : conf_file)
    (item : conff_item) (hl : l ≠ []) (hdec : _item_from_text U l = .ok item)
    (hne : item.hash ≠ []) :
    open_.loop U p (l :: rest) false s =
      open_.loop U p rest false { s with _items := s._items ++ [item] } := by
  rw [open_.loop]
  simp [hl, hdec, hne]

theorem loop_step_drop (U : Nat) (p : Str) (l : Str) (rest : List Str) (s : conf_file)
    (item : conff_item) (hdec : _item_from_text U l = .ok item) (hne : item.hash = []) :
    open_.loop U p (l :: rest) false s = open_.loop U p rest false s := by
  rw [open_.loop]
  by_cases hl : l = []
  · simp [hl]
  · simp [hl, hdec, hne]

theorem item_from_text_no_tilde (U : Nat) (t : Str) (h : '~' ∉ t) :
    _item_from_text U t = .ok {} := by
  unfold _item_from_text Split
  by_cases ht : t = []
  · simp [ht]
  · simp [ht, cut_last '~' t h]

theorem file_item_line (d k v : Str) (h : (FileLine.item d k v).admissible) :
    ∃ item, clean_item item ∧ item_line item = (FileLine.item d k v).text ∧ item.type ≤ 1 := by
  obtain ⟨h1, h2, h3, h4, h5, h6, h7⟩ := h
  have hhash : ∀ c ∈ d, c ≠ ' ' ∧ c ≠ '~' ∧ c ≠ '\n' := fun c hc =>
    ⟨fun e => h2 (e ▸ hc), fun e => h3 (e ▸ hc), fun e => h4 (e ▸ hc)⟩
  have hval : ∀ c ∈ v, c ≠ '~' ∧ c ≠ '\n' := fun c hc =>
    ⟨fun e => h6 (e ▸ hc), fun e => h7 (e ▸ hc)⟩
  have t0 : to_string ((0 % 65536 : Nat) : Int) = "0".toList := by decide
  have t1 : to_string ((1 % 65536 : Nat) : Int) = "1".toList := by decide
  have b0 : (0 : Nat) < 65536 := by decide
  have b1 : (1 : Nat) < 65536 := by decide
  rcases h5 with h5 | h5
  · refine ⟨{ type := 0, hash := d, value := v }, ⟨h1, hhash, hval, b0⟩, ?_, Nat.zero_le 1⟩
    subst h5
    simp only [item_line, FileLine.text, t0]
  · refine ⟨{ type := 1, hash := d, value := v }, ⟨h1, hhash, hval, b1⟩, ?_, Nat.le_refl 1⟩
    subst h5
    simp only [item_line, FileLine.text, t1]

theorem loop_file_lines (U : Nat) (hU : 1 ≤ U) (p : Str) :
    ∀ (ls : List FileLine), (∀ l ∈ ls, l.admissible) → ∀ (rest : List Str) (s : conf_file),
      ∃ items : List conff_item, items.length = ls.countP FileLine.is_item ∧
        open_.loop U p (ls.map FileLine.text ++ rest) false s =
          open_.loop U p rest false { s with _items := s._items ++ items } := by
  intro ls
  induction ls with
  | nil => intro _ rest s; exact ⟨[], rfl, by simp⟩
  | cons l ls ih =>
    intro h rest s
    have hl := h l (List.mem_cons_self _ _)
    have hls : ∀ x ∈ ls, x.admissible := fun x hx => h x (List.mem_cons_of_mem _ hx)
    cases l with
    | item d k v =>
      obtain ⟨item, hclean, hline, hty⟩ := file_item_line d k v hl
      have hdec := item_from_text_line U item hclean (le_trans hty hU)
      rw [hline] at hdec
      obtain ⟨items, hlen, heq⟩ := ih hls rest { s with _items := s._items ++ [item] }
      refine ⟨item :: items, ?_, ?_⟩
      · simp [hlen, FileLine.is_item]
      · simp only [List.map_cons, List.cons_append]
        rw [loop_step_item U p _ _ s item (by rw [← hline]; exact item_line_ne_nil item)
          hdec hclean.1, heq]
        simp
    | garbage t =>
      obtain ⟨items, hlen, heq⟩ := ih hls rest s
      refine ⟨items, ?_, ?_⟩
      · simp [hlen, FileLine.is_item]
      · simp only [List.map_cons, List.cons_append, FileLine.text]
        rw [loop_step_drop U p t _ s {} (item_from_text_no_tilde U t hl.2.1) rfl, heq]

theorem file_line_no_newline (l : FileLine) (h : l.admissible) : '\n' ∉ l.text := by
  cases l with
  | item d k v =>
    obtain ⟨_, _, _, h4, h5, _, h7⟩ := h
    intro hm
    simp only [FileLine.text, List.mem_append] at hm
    rcases hm with ((((hm | hm) | hm) | hm) | hm) | hm
    · revert hm; decide
    · exact h4 hm
    · revert hm; decide
    · rcases h5 with h5 | h5 <;> (subst h5; revert hm; decide)
    · revert hm; decide
    · exact h7 hm
  | garbage t => exact h.2.2

/-! ## Deleting -/

theorem find_eraseP_unique (p : conff_item → Bool) (items : List conff_item)
    (h : (items.filter p).length = 1) : (items.eraseP p).find? p = none := by
  induction items with
  | nil => simp at h
  | cons a rest ih =>
    by_cases ha : p a = true
    · have h0 : (rest.filter p).length = 0 := by
        simpa [List.filter_cons, ha] using h
      have : rest.filter p = [] := List.length_eq_zero.1 h0
      simp only [List.eraseP_cons, ha, cond_true]
      rw [List.find?_eq_none]
      intro x hx hpx
      have : x ∈ rest.filter p := List.mem_filter.2 ⟨hx, hpx⟩
      simp_all
    · have h1 : (rest.filter p).length = 1 := by
        simpa [List.filter_cons, ha] using h
      simp [List.eraseP_cons, ha, List.find?_cons, ih h1]

theorem find_of_filter_length_one (p : conff_item → Bool) (items : List conff_item)
    (h : (items.filter p).length = 1) : ∃ item, items.find? p = some item := by
  cases hf : items.find? p with
  | some item => exact ⟨item, rfl⟩
  | none =>
    rw [List.find?_eq_none] at hf
    have : items.filter p = [] := by
      rw [List.filter_eq_nil_iff]; exact hf
    rw [this] at h; simp at h

/-! ## The claims -/

/-- C1, as stated, fails: a text with `~` does not survive `save` then `open`.  On the
store made by `create_and_open("c.cfg")`, after `set_string("k", "a~b")` the call
`get_string("k")` gives `a~b`; `save()` and `open("c.cfg")` both succeed, and then
`get_string("k")` gives `_NaN_`.  A text with a newline is cut at the newline.  And
when a store that was never opened holds a value with a newline before `open`
binds it, the line after the newline is loaded as an item of its own: with the
value `z`, newline, `$config <digest of k> 0~evil` under the name `x`, the calls
`open("c.cfg")`, `set_string("k", "good")`, `save()`, `open("c.cfg")` end with
`get_string("k")` giving `evil`. -/
theorem roundtrip_separator_text_lost :
    (create_and_open ULONG_MAX_64 (single_file "c.cfg".toList []) conf_file.conf_file
        "c.cfg".toList).1 = .returned true ⟨1000, "c.cfg".toList, []⟩
    ∧ (set_string hex_digest ⟨1000, "c.cfg".toList, []⟩ "k".toList "a~b".toList).2
        = ⟨1000, "c.cfg".toList, [⟨0, hex_digest "k".toList, "a~b".toList⟩]⟩
    ∧ get_string hex_digest ⟨1000, "c.cfg".toList, [⟨0, hex_digest "k".toList, "a~b".toList⟩]⟩
        "k".toList = "a~b".toList
    ∧ (save (single_file "c.cfg".toList "@conff:1000\n".toList)
        ⟨1000, "c.cfg".toList, [⟨0, hex_digest "k".toList, "a~b".toList⟩]⟩).1 = true
    ∧ open_ ULONG_MAX_64
        (save (single_file "c.cfg".toList "@conff:1000\n".toList)
          ⟨1000, "c.cfg".toList, [⟨0, hex_digest "k".toList, "a~b".toList⟩]⟩).2.2
        ⟨1000, "c.cfg".toList, [⟨0, hex_digest "k".toList, "a~b".toList⟩]⟩ "c.cfg".toList
        = .returned true ⟨1000, "c.cfg".toList, []⟩
    ∧ get_string hex_digest ⟨1000, "c.cfg".toList, []⟩ "k".toList = "_NaN_".toList
    ∧ open_ ULONG_MAX_64
        (save (single_file "c.cfg".toList "@conff:1000\n".toList)
          ⟨1000, "c.cfg".toList, [⟨0, hex_digest "k".toList, "a\nb".toList⟩]⟩).2.2
        ⟨1000, "c.cfg".toList, [⟨0, hex_digest "k".toList, "a\nb".toList⟩]⟩ "c.cfg".toList
        = .returned true ⟨1000, "c.cfg".toList, [⟨0, hex_digest "k".toList, "a".toList⟩]⟩
    ∧ open_ ULONG_MAX_64 (single_file "c.cfg".toList "@conff:1000\n".toList)
        (set_string hex_digest conf_file.conf_file "x".toList
          "z\n$config 6b000000000000000000000000000000 0~evil".toList).2 "c.cfg".toList
        = .returned true ⟨1000, "c.cfg".toList, [⟨0, hex_digest "x".toList,
            "z\n$config 6b000000000000000000000000000000 0~evil".toList⟩]⟩
    ∧ get_string hex_digest
        (set_string hex_digest ⟨1000, "c.cfg".toList, [⟨0, hex_digest "x".toList,
            "z\n$config 6b000000000000000000000000000000 0~evil".toList⟩]⟩
          "k".toList "good".toList).2 "k".toList = "good".toList
    ∧ open_ ULONG_MAX_64
        (save (single_file "c.cfg".toList "@conff:1000\n".toList)
          (set_string hex_digest ⟨1000, "c.cfg".toList, [⟨0, hex_digest "x".toList,
              "z\n$config 6b000000000000000000000000000000 0~evil".toList⟩]⟩
            "k".toList "good".toList).2).2.2
        (set_string hex_digest ⟨1000, "c.cfg".toList, [⟨0, hex_digest "x".toList,
            "z\n$config 6b000000000000000000000000000000 0~evil".toList⟩]⟩
          "k".toList "good".toList).2 "c.cfg".toList
        = .returned true ⟨1000, "c.cfg".toList, [⟨0, hex_digest "x".toList, "z".toList⟩,
            ⟨0, hex_digest "k".toList, "evil".toList⟩, ⟨0, hex_digest "k".toList, "good".toList⟩]⟩
    ∧ get_string hex_digest ⟨1000, "c.cfg".toList, [⟨0, hex_digest "x".toList, "z".toList⟩,
        ⟨0, hex_digest "k".toList, "evil".toList⟩, ⟨0, hex_digest "k".toList, "good".toList⟩]⟩
        "k".toList = "evil".toList := by
  decide

/-- C1, amended: round trip through disk for texts without `~` and newline.  Take a
store made from a freshly constructed one by a successful `open(p)` or
`create_and_open(p)`, then any sequence of `set_string` / `set_int` calls whose
names hash to 32 lowercase hexadecimal characters and whose texts hold no `~` and
no newline (they may be empty; the int values are arbitrary).  If `save()`
succeeds, `open(p)` on the store succeeds too, and `get_string` and `get_int`
return for every name what they returned right before `save()`. -/
theorem roundtrip_plain_texts (hash : Str → Str) (U : Nat) (hU : 65535 ≤ U)
    (fs0 : FileSystem) (p : Str) (s0 : conf_file)
    (hbound : open_ U fs0 conf_file.conf_file p = .returned true s0 ∨
      (create_and_open U fs0 conf_file.conf_file p).1 = .returned true s0)
    (ops : List SetOp) (hhash : ∀ op ∈ ops, is_hex_digest (hash op.name))
    (hplain : ∀ op ∈ ops, op.plain)
    (fs : FileSystem) (hsave : (save fs (run_ops hash s0 ops)).1 = true) :
    ∃ s2 : conf_file,
      open_ U (save fs (run_ops hash s0 ops)).2.2 (save fs (run_ops hash s0 ops)).2.1 p
        = .returned true s2 ∧
      ∀ name : Str,
        get_string hash s2 name = get_string hash (run_ops hash s0 ops) name ∧
        get_int hash s2 name = get_int hash (run_ops hash s0 ops) name := by
  have h0 : s0._file_name = p ∧ ∀ item ∈ s0._items, clean_item item := by
    rcases hbound with h | h
    · exact open_fresh_clean U fs0 p s0 h
    · exact create_and_open_fresh_clean U fs0 p s0 h
  obtain ⟨hname, hclean⟩ := run_ops_clean hash ops hhash hplain s0 h0.2
  have hp : (run_ops hash s0 ops)._file_name = p := hname.trans h0.1
  obtain ⟨hne, heq⟩ := save_eq fs _ hsave
  have hopen := save_open_roundtrip U hU fs _ hclean hsave (run_ops hash s0 ops)
  rw [hp] at hopen
  have hself : (save fs (run_ops hash s0 ops)).2.1 = run_ops hash s0 ops := by rw [heq]
  rw [hself]
  refine ⟨_, hopen, fun name => ?_⟩
  have hk : kept_items (run_ops hash s0 ops) = [] := by
    unfold kept_items; rw [if_pos hne]
  simp only [get_string_eq, get_int_eq, hk, List.nil_append, and_self]

/-- C1, amended, at a concrete input: `create_and_open("c.cfg")`, `set_int("retries", 3)`,
`set_string("mode", "fast")`, `save()`, `open("c.cfg")`. -/
theorem roundtrip_plain_texts_witness :
    ∃ s2 : conf_file,
      open_ ULONG_MAX_64
        (save (single_file "c.cfg".toList "@conff:1000\n".toList)
          (run_ops hex_digest ⟨1000, "c.cfg".toList, []⟩
            [.set_int "retries".toList 3, .set_string "mode".toList "fast".toList])).2.2
        (save (single_file "c.cfg".toList "@conff:1000\n".toList)
          (run_ops hex_digest ⟨1000, "c.cfg".toList, []⟩
            [.set_int "retries".toList 3, .set_string "mode".toList "fast".toList])).2.1
        "c.cfg".toList = .returned true s2 ∧
      ∀ name : Str,
        get_string hex_digest s2 name = get_string hex_digest
          (run_ops hex_digest ⟨1000, "c.cfg".toList, []⟩
            [.set_int "retries".toList 3, .set_string "mode".toList "fast".toList]) name ∧
        get_int hex_digest s2 name = get_int hex_digest
          (run_ops hex_digest ⟨1000, "c.cfg".toList, []⟩
            [.set_int "retries".toList 3, .set_string "mode".toList "fast".toList]) name :=
  roundtrip_plain_texts hex_digest ULONG_MAX_64 (by decide)
    (single_file "c.cfg".toList []) "c.cfg".toList ⟨1000, "c.cfg".toList, []⟩
    (Or.inr (by decide))
    [.set_int "retries".toList 3, .set_string "mode".toList "fast".toList]
    (by decide) (by decide)
    (single_file "c.cfg".toList "@conff:1000\n".toList) (by decide)

/-- C2: end-to-end persistence on the ordinary input domain.  With a writable path `p`
(not the empty name), names `n1`, `n2` whose digests are 32 lowercase hexadecimal
characters and differ, an int `0 ≤ v ≤ 2147483647` and a text `s` without `~` and
newline: `create_and_open(p)`, `set_int(n1, v)`, `set_string(n2, s)` and `save()`
on a fresh store all return true, `open(p)` on a second fresh store returns true,
and there `get_int(n1) = v`, `get_string(n2) = s` and `get_n_items() = 2`. -/
theorem end_to_end_persistence (hash : Str → Str) (U : Nat) (hU : 65535 ≤ U)
    (fs : FileSystem) (p : Str) (hp : p ≠ []) (hw : fs.writable p = true)
    (n1 n2 : Str) (h1 : is_hex_digest (hash n1)) (h2 : is_hex_digest (hash n2))
    (hne : hash n1 ≠ hash n2) (v : Int) (hv0 : 0 ≤ v) (hv1 : v ≤ 2147483647)
    (s : Str) (hs : plain_text s) :
    ∃ (sa sb sc sd : conf_file) (fsa fsc : FileSystem),
      create_and_open U fs conf_file.conf_file p = (.returned true sa, fsa) ∧
      set_int hash sa n1 v = (true, sb) ∧
      set_string hash sb n2 s = (true, sc) ∧
      save fsa sc = (true, sc, fsc) ∧
      open_ U fsc conf_file.conf_file p = .returned true sd ∧
      get_int hash sd n1 = .ok v ∧ get_string hash sd n2 = s ∧ get_n_items sd = 2 := by
  obtain ⟨n, rfl⟩ := Int.eq_ofNat_of_zero_le hv0
  -- the file written by `create_and_open` and the store it loads
  have hcreate : create_and_open U fs conf_file.conf_file p =
      (.returned true ⟨1000, p, []⟩, fs.write p (saved_text [])) := by
    unfold create_and_open
    simp only [hw, Bool.not_true, Bool.false_eq_true, if_false]
    have := open_saved_text U hU (fs.write p (saved_text [])) p [] (by simp)
      (write_content _ _ _) conf_file.conf_file
    simp only [kept_items, conf_file.conf_file, ne_eq, not_true_eq_false, if_false,
      List.append_nil] at this
    simp only [saved_text, List.map_nil, List.flatten_nil, List.append_nil] at this ⊢
    rw [conf_file.conf_file, this]
  have hsb : set_int hash ⟨1000, p, []⟩ n1 (n : Int) =
      (true, ⟨1000, p, [⟨CONFF_ITEM_TYPE.INTEGER, hash n1, to_string (n : Int)⟩]⟩) := by
    rw [set_int_eq]; rfl
  have hsc : set_string hash ⟨1000, p, [⟨CONFF_ITEM_TYPE.INTEGER, hash n1, to_string (n : Int)⟩]⟩
      n2 s = (true, ⟨1000, p, [⟨CONFF_ITEM_TYPE.INTEGER, hash n1, to_string (n : Int)⟩,
        ⟨CONFF_ITEM_TYPE.TEXT, hash n2, s⟩]⟩) := by
    rw [set_string_eq]; simp [upsert, hne]
  have hclean : ∀ item ∈ [(⟨CONFF_ITEM_TYPE.INTEGER, hash n1, to_string (n : Int)⟩ : conff_item),
      ⟨CONFF_ITEM_TYPE.TEXT, hash n2, s⟩], clean_item item := by
    intro item hi
    simp only [List.mem_cons, List.mem_singleton, List.not_mem_nil, or_false] at hi
    rcases hi with hi | hi
    · subst hi
      exact ⟨(hex_digest_clean _ h1).1, (hex_digest_clean _ h1).2, to_string_plain (n : Int),
        by show (1 : Nat) < 65536; decide⟩
    · subst hi
      exact ⟨(hex_digest_clean _ h2).1, (hex_digest_clean _ h2).2, hs,
        by show (0 : Nat) < 65536; decide⟩
  have hsave := (save_eq (fs.write p (saved_text []))
    ⟨1000, p, [⟨CONFF_ITEM_TYPE.INTEGER, hash n1, to_string (n : Int)⟩,
      ⟨CONFF_ITEM_TYPE.TEXT, hash n2, s⟩]⟩ (by simp [save, hp, FileSystem.write, hw])).2
  have hopen := open_saved_text U hU _ p _ hclean (write_content (fs.write p (saved_text [])) p _)
    conf_file.conf_file
  refine ⟨_, _, _, _, _, _, hcreate, hsb, hsc, hsave, hopen, ?_, ?_, ?_⟩
  · have hv := get_int_to_string n (by unfold INT_MAX; exact hv1)
    rw [get_int_eq]
    simp [kept_items, conf_file.conf_file, has_hash, List.find?_cons, hv.1, hv.2]
  · rw [get_string_eq]
    simp [kept_items, conf_file.conf_file, has_hash, List.find?_cons, hne]
  · simp [get_n_items, kept_items, conf_file.conf_file]

/-- C2 at the case of the spec: `retries` = 3 and `mode` = `fast` in `c.cfg`. -/
theorem end_to_end_persistence_witness :
    ∃ (sa sb sc sd : conf_file) (fsa fsc : FileSystem),
      create_and_open ULONG_MAX_64 (single_file "c.cfg".toList []) conf_file.conf_file
        "c.cfg".toList = (.returned true sa, fsa) ∧
      set_int hex_digest sa "retries".toList 3 = (true, sb) ∧
      set_string hex_digest sb "mode".toList "fast".toList = (true, sc) ∧
      save fsa sc = (true, sc, fsc) ∧
      open_ ULONG_MAX_64 fsc conf_file.conf_file "c.cfg".toList = .returned true sd ∧
      get_int hex_digest sd "retries".toList = .ok 3 ∧
      get_string hex_digest sd "mode".toList = "fast".toList ∧ get_n_items sd = 2 :=
  end_to_end_persistence hex_digest ULONG_MAX_64 (by decide) (single_file "c.cfg".toList [])
    "c.cfg".toList (by decide) (by decide) "retries".toList "mode".toList (by decide)
    (by decide) (by decide) 3 (by decide) (by decide) "fast".toList (by decide)

/-- C3 fails on the code for negative values: after `set_int("k", -5)` on a fresh store,
`get_string("k")` is the decimal text `-5`, but `get_int("k")` returns `INT_ERROR`
(2147483647) and not -5, because `is_integer` accepts digits only. -/
theorem set_int_negative_get_int :
    (set_int hex_digest conf_file.conf_file "k".toList (-5)).2
      = ⟨-1, [], [⟨CONFF_ITEM_TYPE.INTEGER, hex_digest "k".toList, "-5".toList⟩]⟩
    ∧ get_string hex_digest (set_int hex_digest conf_file.conf_file "k".toList (-5)).2
        "k".toList = "-5".toList
    ∧ get_int hex_digest (set_int hex_digest conf_file.conf_file "k".toList (-5)).2
        "k".toList = .ok INT_ERROR := by
  decide

/-- C4: overwrite semantics.  In every store, for every name and all texts `A` and `B`,
after `set_string(name, A)` then `set_string(name, B)` (both return true)
`get_string(name)` returns `B`, and `get_n_items()` is what it was right after the
first call. -/
theorem set_string_overwrite (hash : Str → Str) (s : conf_file) (name A B : Str) :
    (set_string hash s name A).1 = true ∧
    (set_string hash (set_string hash s name A).2 name B).1 = true ∧
    get_string hash (set_string hash (set_string hash s name A).2 name B).2 name = B ∧
    get_n_items (set_string hash (set_string hash s name A).2 name B).2
      = get_n_items (set_string hash s name A).2 := by
  simp only [set_string_eq, get_string_eq, get_n_items, true_and]
  obtain ⟨i1, hf1, _⟩ := find_upsert_same (hash name) CONFF_ITEM_TYPE.TEXT A s._items
  obtain ⟨i2, hf2, hv2, _⟩ := find_upsert_same (hash name) CONFF_ITEM_TYPE.TEXT B
    (upsert (hash name) CONFF_ITEM_TYPE.TEXT A s._items)
  refine ⟨?_, ?_⟩
  · rw [hf2]; exact hv2
  · exact length_upsert_of_some _ _ _ _ (by rw [hf1]; simp)

/-- C5, as stated, fails: `open` loads a file that repeats a digest as it is, and
`delete_config` removes only the first of the two items.  After `open("c.cfg")` on
a fresh store, with the digest of `k` on two item lines, `delete_config("k")`
returns true and then `get_string("k")` returns `b`, not `_NaN_`. -/
theorem delete_repeated_digest_get :
    open_ ULONG_MAX_64 (single_file "c.cfg".toList
        ("@conff:1000\n$config 6b000000000000000000000000000000 0~a\n".toList
          ++ "$config 6b000000000000000000000000000000 0~b\n".toList))
        conf_file.conf_file "c.cfg".toList
      = .returned true ⟨1000, "c.cfg".toList,
          [⟨0, hex_digest "k".toList, "a".toList⟩, ⟨0, hex_digest "k".toList, "b".toList⟩]⟩
    ∧ delete_config hex_digest ⟨1000, "c.cfg".toList,
          [⟨0, hex_digest "k".toList, "a".toList⟩, ⟨0, hex_digest "k".toList, "b".toList⟩]⟩
        "k".toList
      = (true, ⟨1000, "c.cfg".toList, [⟨0, hex_digest "k".toList, "b".toList⟩]⟩)
    ∧ get_string hex_digest ⟨1000, "c.cfg".toList, [⟨0, hex_digest "k".toList, "b".toList⟩]⟩
        "k".toList = "b".toList
    ∧ "b".toList ≠ STR_ERROR := by
  decide

/-- C5, amended: delete then get, when the digest is in the table once.  In every
store and for every name such that exactly one item has the digest of the name,
`delete_config(name)` returns true and right afterwards `get_string(name)` returns
`STR_ERROR` and `get_int(name)` returns `INT_ERROR`. -/
theorem delete_then_get_unique (hash : Str → Str) (s : conf_file) (name : Str)
    (h : (s._items.filter (fun item => decide (item.hash = hash name))).length = 1) :
    (delete_config hash s name).1 = true ∧
    get_string hash (delete_config hash s name).2 name = STR_ERROR ∧
    get_int hash (delete_config hash s name).2 name = .ok INT_ERROR := by
  have h1 : (s._items.filter (has_hash (hash name))).length = 1 := h
  obtain ⟨item, hf⟩ := find_of_filter_length_one _ _ h1
  have he := find_eraseP_unique _ _ h1
  rw [delete_config_eq, hf]
  simp only [get_string_eq, get_int_eq, he, and_self]

/-- C5, amended, on a table of two items with different digests. -/
theorem delete_then_get_unique_witness :
    (delete_config hex_digest ⟨1000, "c.cfg".toList,
        [⟨1, hex_digest "retries".toList, "3".toList⟩,
          ⟨0, hex_digest "mode".toList, "fast".toList⟩]⟩ "mode".toList).1 = true ∧
    get_string hex_digest (delete_config hex_digest ⟨1000, "c.cfg".toList,
        [⟨1, hex_digest "retries".toList, "3".toList⟩,
          ⟨0, hex_digest "mode".toList, "fast".toList⟩]⟩ "mode".toList).2 "mode".toList
      = STR_ERROR ∧
    get_int hex_digest (delete_config hex_digest ⟨1000, "c.cfg".toList,
        [⟨1, hex_digest "retries".toList, "3".toList⟩,
          ⟨0, hex_digest "mode".toList, "fast".toList⟩]⟩ "mode".toList).2 "mode".toList
      = .ok INT_ERROR :=
  delete_then_get_unique hex_digest ⟨1000, "c.cfg".toList,
    [⟨1, hex_digest "retries".toList, "3".toList⟩,
      ⟨0, hex_digest "mode".toList, "fast".toList⟩]⟩ "mode".toList (by decide)

/-- C6 fails on the code: `open` empties the table only when the store is bound to a
file.  On a store that was never opened and holds the item of `set_string("k", "v")`,
`open("c.cfg")` of a file whose first line is `hello` returns false, leaves the
store unbound with version -1, and keeps the item: `get_n_items()` is 1, not 0. -/
theorem open_bad_header_keeps_items :
    (set_string hex_digest conf_file.conf_file "k".toList "v".toList).2
      = ⟨-1, [], [⟨0, hex_digest "k".toList, "v".toList⟩]⟩
    ∧ open_ ULONG_MAX_64 (single_file "c.cfg".toList "hello\n".toList)
        ⟨-1, [], [⟨0, hex_digest "k".toList, "v".toList⟩]⟩ "c.cfg".toList
      = .returned false ⟨-1, [], [⟨0, hex_digest "k".toList, "v".toList⟩]⟩
    ∧ get_n_items ⟨-1, [], [⟨0, hex_digest "k".toList, "v".toList⟩]⟩ = 1 := by
  decide

/-- C7: malformed load tolerance.  For every file made of the header line `@conff:1000`
and then any lines, each a well-formed item line or a non-blank line without `~`,
in any order and with or without a newline after the last line, `open` on a fresh
store returns true and `get_n_items()` is the number of item lines. -/
theorem malformed_load_tolerance (U : Nat) (hU : 1 ≤ U) (fs : FileSystem) (p : Str)
    (ls : List FileLine) (final_newline : Bool) (hls : ∀ l ∈ ls, l.admissible)
    (hfile : fs.content p = some (file_text ls final_newline)) :
    ∃ s : conf_file, open_ U fs conf_file.conf_file p = .returned true s ∧
      get_n_items s = ls.countP FileLine.is_item := by
  have hlines : getlines (file_text ls final_newline) =
      ("@conff:1000".toList :: ls.map FileLine.text) ++ (if final_newline then [[]] else []) := by
    unfold getlines file_text
    refine cut_join_lines final_newline _ _ (by decide) ?_
    intro x hx
    obtain ⟨l, hl, rfl⟩ := List.mem_map.1 hx
    exact file_line_no_newline l (hls l hl)
  obtain ⟨items, hlen, hloop⟩ := loop_file_lines U hU p ls hls
    (if final_newline then [[]] else []) { conf_file.conf_file with _version := 1000 }
  have hne : "@conff:1000".toList ≠ [] := by decide
  refine ⟨{ _version := 1000, _file_name := p, _items := items }, ?_, ?_⟩
  · unfold open_
    simp only [hfile, hlines, List.cons_append]
    rw [open_.loop]
    simp only [hne, if_false, if_true]
    have hh : load_header (if conf_file.conf_file._file_name ≠ [] then
        { _version := -1, _file_name := [], _items := [] } else conf_file.conf_file)
        "@conff:1000".toList = .ok (true, { conf_file.conf_file with _version := 1000 }) := by
      rfl
    rw [hh]
    simp only [hloop]
    cases final_newline <;> simp [open_.loop, conf_file.conf_file]
  · simp [get_n_items, hlen]

/-- C7 at the file of the spec: one well-formed item line and one garbage line. -/
theorem malformed_load_tolerance_witness :
    ∃ s : conf_file,
      open_ ULONG_MAX_64 (single_file "c.cfg".toList
          "@conff:1000\n$config 6b000000000000000000000000000000 0~v\ngarbage line\n".toList)
        conf_file.conf_file "c.cfg".toList = .returned true s ∧
      get_n_items s = [FileLine.item "6b000000000000000000000000000000".toList "0".toList
          "v".toList, FileLine.garbage "garbage line".toList].countP FileLine.is_item :=
  malformed_load_tolerance ULONG_MAX_64 (by decide)
    (single_file "c.cfg".toList
      "@conff:1000\n$config 6b000000000000000000000000000000 0~v\ngarbage line\n".toList)
    "c.cfg".toList
    [FileLine.item "6b000000000000000000000000000000".toList "0".toList "v".toList,
      FileLine.garbage "garbage line".toList] true (by decide) (by decide)

/-- C8: non-numeric `get_int`.  In every store, for every name and every text `t` that
is not a non-empty string of decimal digits, after `set_string(name, t)` the call
`get_int(name)` returns `INT_ERROR` and raises nothing. -/
theorem get_int_non_numeric (hash : Str → Str) (s : conf_file) (name t : Str)
    (ht : ¬ (t ≠ [] ∧ ∀ c ∈ t, c.isDigit = true)) :
    get_int hash (set_string hash s name t).2 name = .ok INT_ERROR := by
  rw [get_int_eq, set_string_eq]
  obtain ⟨item, hf, hv, _⟩ := find_upsert_same (hash name) CONFF_ITEM_TYPE.TEXT t s._items
  simp only [hf, hv]
  have : is_integer t = false := by
    cases hi : is_integer t with
    | false => rfl
    | true => exact absurd ((is_integer_iff t).1 hi) ht
  simp [this]

/-- C8 at the text `abc` of the spec. -/
theorem get_int_non_numeric_witness :
    get_int hex_digest (set_string hex_digest conf_file.conf_file "k".toList "abc".toList).2
      "k".toList = .ok INT_ERROR :=
  get_int_non_numeric hex_digest conf_file.conf_file "k".toList "abc".toList (by decide)

/-- C9, as stated, fails: a digit string that denotes a number above 2147483647 makes
`std::stoi` throw.  After `set_string("k", "2147483648")` on a fresh store,
`get_int("k")` raises `std::out_of_range`. -/
theorem get_int_digits_out_of_range :
    get_int hex_digest
      (set_string hex_digest conf_file.conf_file "k".toList "2147483648".toList).2 "k".toList
      = .error .out_of_range := by
  decide

/-- C9, amended: numeric text parses under `get_int` whatever the kind, when the
number fits an `int`.  In every store, for every name and every non-empty string
`t` of decimal digits that denotes a number of at most 2147483647, after
`set_string(name, t)` the call `get_int(name)` raises nothing and returns the
number that `t` denotes. -/
theorem get_int_digits_in_range (hash : Str → Str) (s : conf_file) (name t : Str)
    (hne : t ≠ []) (hdig : ∀ c ∈ t, c.isDigit = true)
    (hfit : decimal_value t ≤ 2147483647) :
    get_int hash (set_string hash s name t).2 name = .ok (decimal_value t : Int) := by
  rw [get_int_eq, set_string_eq]
  obtain ⟨item, hf, hv, _⟩ := find_upsert_same (hash name) CONFF_ITEM_TYPE.TEXT t s._items
  simp only [hf, hv]
  have hi : is_integer t = true := (is_integer_iff t).2 ⟨hne, hdig⟩
  rw [if_pos hi, stoi_digits t hi]
  have : ¬ INT_MAX < (decimal_value t : Int) := by
    unfold INT_MAX; omega
  rw [if_neg this]

/-- C9, amended, at the text `0042`, which denotes 42. -/
theorem get_int_digits_in_range_witness :
    get_int hex_digest (set_string hex_digest conf_file.conf_file "k".toList "0042".toList).2
      "k".toList = .ok ((decimal_value "0042".toList : Nat) : Int)
    ∧ decimal_value "0042".toList = 42 :=
  ⟨get_int_digits_in_range hex_digest conf_file.conf_file "k".toList "0042".toList
    (by decide) (by decide) (by decide), by decide⟩

/-- C10 fails on the code: `open` raises on numbers that are too large.  A header
`@conff:99999999999` passes `is_integer` and makes `std::stoi` throw; after a valid
header, an item line whose kind is a digit string above the largest `unsigned long`
makes `std::stoul` throw, so the line is not dropped and `open` does not return. -/
theorem open_raises_out_of_range :
    open_ ULONG_MAX_64 (single_file "c.cfg".toList "@conff:99999999999\n".toList)
        conf_file.conf_file "c.cfg".toList
      = .raised .out_of_range conf_file.conf_file
    ∧ open_ ULONG_MAX_64 (single_file "c.cfg".toList
          "@conff:1000\n$config ab 99999999999999999999~x\n".toList)
        conf_file.conf_file "c.cfg".toList
      = .raised .out_of_range ⟨1000, [], []⟩ := by
  decide


/-! ## One slot of the table -/

theorem upsert_slot (h : Str) (ty : CONFF_ITEM_TYPE) (v : Str) (items : List conff_item) :
    slot_written items (upsert h ty v items) h { type := ty, hash := h, value := v } := by
  induction items with
  | nil =>
    refine ⟨fun _ => rfl, fun hex => ?_⟩
    obtain ⟨item, hi, _⟩ := hex
    simp at hi
  | cons a r ih =>
    by_cases ha : a.hash = h
    · refine ⟨fun hno => absurd ha (hno a (List.mem_cons_self _ _)), fun _ => ?_⟩
      refine ⟨by simp [upsert, ha], 0, a, by simp, ha, ?_, ?_, ha.symm, ?_⟩
      · intro j item hj; omega
      · simp [upsert, ha]
      · intro j hj
        cases j with
        | zero => exact absurd rfl hj
        | succ j => simp [upsert, ha]
    · refine ⟨fun hno => ?_, fun hex => ?_⟩
      · have := ih.1 (fun item hi => hno item (List.mem_cons_of_mem _ hi))
        simp [upsert, ha, this]
      · have hex1 : ∃ item ∈ r, item.hash = h := by
          obtain ⟨item, hi, hh⟩ := hex
          rcases List.mem_cons.1 hi with hi | hi
          · subst hi; exact absurd hh ha
          · exact ⟨item, hi, hh⟩
        obtain ⟨hlen, k, old_item, hk, hoh, hbefore, hnew, hnh, hother⟩ := ih.2 hex1
        refine ⟨by simp [upsert, ha, hlen], k + 1, old_item, by simpa using hk, hoh,
          ?_, by simpa [upsert, ha] using hnew, hnh, ?_⟩
        · intro j item hj hitem
          cases j with
          | zero =>
            simp only [List.getElem?_cons_zero, Option.some.injEq] at hitem
            subst hitem; exact ha
          | succ j =>
            exact hbefore j item (by omega) (by simpa using hitem)
        · intro j hj
          cases j with
          | zero => simp [upsert, ha]
          | succ j =>
            have := hother j (by omega)
            simpa [upsert, ha] using this

theorem find_upsert_other (h1 h2 : Str) (hne : h1 ≠ h2) (ty : CONFF_ITEM_TYPE) (v : Str)
    (items : List conff_item) :
    (upsert h1 ty v items).find? (has_hash h2) = items.find? (has_hash h2) := by
  induction items with
  | nil => simp [upsert, has_hash, hne]
  | cons a r ih =>
    by_cases ha : a.hash = h1
    · have : a.hash ≠ h2 := fun h => hne (ha.symm.trans h)
      simp [upsert, ha, has_hash, List.find?_cons, hne]
    · by_cases hb : a.hash = h2
      · have hne2 : ¬ h2 = h1 := fun h => hne h.symm
        simp [upsert, has_hash, List.find?_cons, hb, hne2]
      · simp only [upsert, ha, if_false, List.find?_cons, has_hash, hb, decide_False]
        simpa [has_hash] using ih

theorem find_eraseP_other (h1 h2 : Str) (hne : h1 ≠ h2) (items : List conff_item) :
    (items.eraseP (has_hash h1)).find? (has_hash h2) = items.find? (has_hash h2) := by
  induction items with
  | nil => rfl
  | cons a r ih =>
    by_cases ha : a.hash = h1
    · have : a.hash ≠ h2 := fun h => hne (ha.symm.trans h)
      simp [List.eraseP_cons, has_hash, ha, List.find?_cons, hne]
    · by_cases hb : a.hash = h2
      · have hne2 : ¬ h2 = h1 := fun h => hne h.symm
        simp [List.eraseP_cons, has_hash, List.find?_cons, hb, hne2]
      · simp only [List.eraseP_cons, has_hash, ha, decide_False, cond_false, List.find?_cons,
          hb]
        simpa [has_hash] using ih

theorem find_none_iff (h : Str) (items : List conff_item) :
    items.find? (has_hash h) = none ↔ ∀ item ∈ items, item.hash ≠ h := by
  simp [List.find?_eq_none, has_hash]

/-! ## Decoding a line field by field -/

theorem item_from_text_fields (U : Nat) (d code v : Str) (hd1 : ' ' ∉ d) (hd2 : '~' ∉ d)
    (hcode : is_integer code = true) (hv : '~' ∉ v) :
    _item_from_text U ("$config ".toList ++ d ++ " ".toList ++ code ++ "~".toList ++ v) =
      match stoul U code with
      | .error e => .error e
      | .ok n => .ok { type := n % 65536, hash := d, value := v } := by
  obtain ⟨hne, hdig⟩ := (is_integer_iff code).1 hcode
  have hcs : ∀ c ∈ code, c ≠ ' ' ∧ c ≠ '~' := by
    intro c hc
    have := hdig c hc
    refine ⟨?_, ?_⟩ <;> (intro h0; rw [h0] at this; exact absurd this (by decide))
  have hpre : '~' ∉ "$config ".toList ++ d ++ " ".toList ++ code := by
    intro hm
    simp only [List.mem_append] at hm
    rcases hm with ((hm | hm) | hm) | hm
    · revert hm; decide
    · exact hd2 hm
    · revert hm; decide
    · exact (hcs _ hm).2 rfl
  have hsplit1 : Split ("$config ".toList ++ d ++ " ".toList ++ code ++ "~".toList ++ v) '~' =
      ["$config ".toList ++ d ++ " ".toList ++ code, v] := by
    unfold Split
    rw [if_neg (by simp)]
    have : "$config ".toList ++ d ++ " ".toList ++ code ++ "~".toList ++ v
        = ("$config ".toList ++ d ++ " ".toList ++ code) ++ '~' :: v := by simp
    rw [this, cut_fragment _ _ hpre, cut_last _ _ hv]
  have hsplit2 : Split ("$config ".toList ++ d ++ " ".toList ++ code) ' ' =
      ["$config".toList, d, code] := by
    unfold Split
    rw [if_neg (by simp)]
    have : "$config ".toList ++ d ++ " ".toList ++ code
        = "$config".toList ++ ' ' :: (d ++ ' ' :: code) := by simp
    rw [this, cut_fragment _ _ (by decide), cut_fragment _ _ hd1,
      cut_last _ _ (fun hm => (hcs _ hm).1 rfl)]
  unfold _item_from_text
  simp only [hsplit1, hsplit2]
  simp only [hcode]
  cases stoul U code <;> simp

/-! ## What `open` does to the store -/

theorem item_from_text_type (U : Nat) (l : Str) (item : conff_item)
    (hdec : _item_from_text U l = .ok item) : item.type < 65536 := by
  have hdef : (2 : Nat) < 65536 := by decide
  unfold _item_from_text at hdec
  split at hdec
  · split at hdec
    · split at hdec
      · injection hdec with hdec; subst hdec; exact hdef
      · split at hdec
        · exact absurd hdec (by simp)
        · injection hdec with hdec; subst hdec; exact Nat.mod_lt _ (by decide)
    · injection hdec with hdec; subst hdec; exact hdef
  · injection hdec with hdec; subst hdec; exact hdef

theorem loop_items_inv (U : Nat) (p : Str) (P : conff_item → Prop) :
    ∀ (ls : List Str) (first : Bool) (s s1 : conf_file) (b : Bool),
      (∀ l ∈ ls, ∀ item, _item_from_text U l = .ok item → item.hash ≠ [] → P item) →
      (∀ item ∈ s._items, P item) →
      open_.loop U p ls first s = .returned b s1 →
      ∀ item ∈ s1._items, P item := by
  intro ls
  induction ls with
  | nil =>
    intro first s s1 b _ hs h
    simp only [open_.loop, Outcome.returned.injEq] at h
    obtain ⟨_, h⟩ := h
    subst h
    exact hs
  | cons l rest ih =>
    intro first s s1 b hls hs h
    have hrest : ∀ x ∈ rest, ∀ item, _item_from_text U x = .ok item → item.hash ≠ [] → P item :=
      fun x hx => hls x (List.mem_cons_of_mem _ hx)
    rw [open_.loop] at h
    split at h
    · exact ih first s s1 b hrest hs h
    · split at h
      · split at h
        · exact absurd h (by simp)
        · rename_i s2 hh
          have hf := load_header_frame s s2 l false hh
          simp only [Outcome.returned.injEq] at h
          obtain ⟨_, h⟩ := h
          subst h
          rw [hf.1]; exact hs
        · rename_i s2 hh
          have hf := load_header_frame s s2 l true hh
          exact ih false s2 s1 b hrest (by rw [hf.1]; exact hs) h
      · split at h
        · exact absurd h (by simp)
        · rename_i item hdec
          split at h
          · exact ih first s s1 b hrest hs h
          · rename_i hne
            refine ih first _ s1 b hrest ?_ h
            intro it hit
            rcases List.mem_append.1 hit with hit | hit
            · exact hs it hit
            · simp only [List.mem_singleton] at hit
              subst hit
              exact hls l (List.mem_cons_self _ _) it hdec hne

theorem loop_no_item (U : Nat) (p : Str) :
    ∀ (ls : List Str) (first : Bool) (s s1 : conf_file) (b : Bool),
      (∀ l ∈ ls, '~' ∉ l) →
      open_.loop U p ls first s = .returned b s1 → s1._items = s._items := by
  intro ls
  induction ls with
  | nil =>
    intro first s s1 b _ h
    simp only [open_.loop, Outcome.returned.injEq] at h
    obtain ⟨_, h⟩ := h
    subst h
    rfl
  | cons l rest ih =>
    intro first s s1 b hls h
    have hrest : ∀ x ∈ rest, '~' ∉ x := fun x hx => hls x (List.mem_cons_of_mem _ hx)
    have hl := item_from_text_no_tilde U l (hls l (List.mem_cons_self _ _))
    rw [open_.loop] at h
    split at h
    · exact ih first s s1 b hrest h
    · split at h
      · split at h
        · exact absurd h (by simp)
        · rename_i s2 hh
          have hf := load_header_frame s s2 l false hh
          simp only [Outcome.returned.injEq] at h
          obtain ⟨_, h⟩ := h
          subst h
          exact hf.1
        · rename_i s2 hh
          have hf := load_header_frame s s2 l true hh
          exact (ih false s2 s1 b hrest h).trans hf.1
      · rw [hl] at h
        simp only [if_true] at h
        exact ih first s s1 b hrest h

theorem open_items_inv (U : Nat) (fs : FileSystem) (p : Str) (P : conff_item → Prop)
    (s s1 : conf_file) (b : Bool)
    (hP : ∀ l item, _item_from_text U l = .ok item → item.hash ≠ [] → P item)
    (hs : ∀ item ∈ s._items, P item) (h : open_ U fs s p = .returned b s1) :
    ∀ item ∈ s1._items, P item := by
  unfold open_ at h
  have hs1 : ∀ item ∈ (if s._file_name ≠ [] then
      ({ _version := -1, _file_name := [], _items := [] } : conf_file) else s)._items,
      P item := by
    split
    · simp
    · exact hs
  cases hc : fs.content p with
  | none =>
    simp only [hc, Outcome.returned.injEq] at h
    obtain ⟨_, h⟩ := h
    rw [← h]; exact hs1
  | some content =>
    simp only [hc] at h
    exact loop_items_inv U p P _ true _ s1 b (fun l _ => hP l) hs1 h

theorem open_no_item (U : Nat) (fs : FileSystem) (p : Str) (s s1 : conf_file) (b : Bool)
    (hfile : ∀ content, fs.content p = some content → no_item_line content)
    (h : open_ U fs s p = .returned b s1) : s1._items = kept_items s := by
  unfold open_ at h
  have hk : (if s._file_name ≠ [] then
      ({ _version := -1, _file_name := [], _items := [] } : conf_file) else s)._items
      = kept_items s := by
    unfold kept_items; split <;> rfl
  cases hc : fs.content p with
  | none =>
    simp only [hc, Outcome.returned.injEq] at h
    obtain ⟨_, h⟩ := h
    rw [← h]; exact hk
  | some content =>
    simp only [hc] at h
    exact (loop_no_item U p _ true _ s1 b (hfile content hc) h).trans hk

theorem create_and_open_eq (U : Nat) (fs : FileSystem) (s : conf_file) (p : Str) :
    create_and_open U fs s p = (.returned false s, fs) ∨
    (fs.writable p = true ∧ create_and_open U fs s p =
      (open_ U (fs.write p "@conff:1000\n".toList) s p, fs.write p "@conff:1000\n".toList)) := by
  unfold create_and_open
  by_cases hw : fs.writable p = true
  · right
    refine ⟨hw, ?_⟩
    have : "@conff:".toList ++ to_string CONFF_VERSION ++ "\n".toList = "@conff:1000\n".toList := by
      decide
    simp only [hw, Bool.not_true, Bool.false_eq_true, if_false, this]
  · left; simp [hw]

theorem header_only_no_item : no_item_line "@conff:1000\n".toList := by
  unfold no_item_line; decide

/-! ## The header line -/

theorem cut_ne_nil (sep : Char) : ∀ (t cur : Str), cut sep t cur ≠ [] := by
  intro t
  induction t with
  | nil => intro cur; simp [cut]
  | cons c cs ih =>
    intro cur
    by_cases hc : c = sep
    · simp [cut, hc]
    · simpa [cut, hc] using ih (c :: cur)

theorem cut_one (sep : Char) : ∀ (t cur b : Str), cut sep t cur = [b] → b = cur.reverse ++ t := by
  intro t
  induction t with
  | nil => intro cur b h; simp [cut] at h; simp [h]
  | cons c cs ih =>
    intro cur b h
    by_cases hc : c = sep
    · simp only [cut, hc, if_true, List.cons.injEq] at h
      exact absurd h.2 (cut_ne_nil sep cs [])
    · simp only [cut, hc, if_false] at h
      have := ih (c :: cur) b h
      simpa using this

theorem cut_two (sep : Char) : ∀ (t cur a b : Str), cut sep t cur = [a, b] →
    cur.reverse ++ t = a ++ sep :: b := by
  intro t
  induction t with
  | nil => intro cur a b h; simp [cut] at h
  | cons c cs ih =>
    intro cur a b h
    by_cases hc : c = sep
    · simp only [cut, hc, if_true, List.cons.injEq] at h
      obtain ⟨h1, h2⟩ := h
      have := cut_one sep cs [] b h2
      simp only [List.reverse_nil, List.nil_append] at this
      rw [← h1, hc, this]
    · simp only [cut, hc, if_false] at h
      have := ih (c :: cur) a b h
      simpa using this

theorem load_header_true (s s1 : conf_file) (l : Str) (h : load_header s l = .ok (true, s1)) :
    ∃ digits : Str, l = "@conff:".toList ++ digits ∧ is_integer digits = true ∧
      s1 = { s with _version := (decimal_value digits : Int) } := by
  unfold load_header at h
  split at h
  · rename_i header0 header1 hs
    split at h
    · simp at h
    · rename_i h0
      split at h
      · simp at h
      · rename_i hint
        have hint1 : is_integer header1 = true := by simpa using hint
        rw [stoi_digits header1 hint1] at h
        by_cases hfit : INT_MAX < (decimal_value header1 : Int)
        · simp [hfit] at h
        · simp only [hfit, if_false, Except.ok.injEq, Prod.mk.injEq, true_and] at h
          have hl : l = header0 ++ ':' :: header1 := by
            unfold Split at hs
            split at hs
            · simp at hs
            · simpa using cut_two ':' l [] header0 header1 hs
          have h00 : header0 = "@conff".toList := by simpa using h0
          refine ⟨header1, ?_, hint1, h.symm⟩
          rw [hl, h00]; rfl
  · simp at h

theorem load_header_false (s s1 : conf_file) (l : Str) (h : load_header s l = .ok (false, s1)) :
    s1 = s := by
  unfold load_header at h
  split at h
  · split at h
    · simp at h; exact h.symm
    · split at h
      · simp at h; exact h.symm
      · split at h <;> simp at h
  · simp at h; exact h.symm

theorem loop_rest_version (U : Nat) (p : Str) :
    ∀ (ls : List Str) (s s1 : conf_file) (b : Bool),
      open_.loop U p ls false s = .returned b s1 →
      b = true ∧ s1._version = s._version ∧ s1._file_name = p := by
  intro ls
  induction ls with
  | nil =>
    intro s s1 b h
    simp only [open_.loop, Outcome.returned.injEq] at h
    obtain ⟨hb, h⟩ := h
    subst h
    exact ⟨hb.symm, rfl, rfl⟩
  | cons l rest ih =>
    intro s s1 b h
    rw [open_.loop] at h
    split at h
    · exact ih s s1 b h
    · simp only [Bool.false_eq_true, if_false] at h
      split at h
      · exact absurd h (by simp)
      · split at h
        · exact ih s s1 b h
        · have := ih _ s1 b h
          exact this

theorem loop_first_version (U : Nat) (p : Str) :
    ∀ (ls : List Str) (s s1 : conf_file) (b : Bool),
      open_.loop U p ls true s = .returned b s1 →
      match ls.find? (fun l => decide (l ≠ [])) with
      | none => b = true ∧ s1._file_name = p ∧ s1._version = s._version
      | some l =>
        (b = false ∧ s1 = s) ∨
        (b = true ∧ s1._file_name = p ∧ ∃ digits : Str, l = "@conff:".toList ++ digits ∧
          is_integer digits = true ∧ s1._version = (decimal_value digits : Int)) := by
  intro ls
  induction ls with
  | nil =>
    intro s s1 b h
    simp only [open_.loop, Outcome.returned.injEq] at h
    obtain ⟨hb, h⟩ := h
    subst h
    exact ⟨hb.symm, rfl, rfl⟩
  | cons l rest ih =>
    intro s s1 b h
    rw [open_.loop] at h
    by_cases hl : l = []
    · simp only [hl, if_true] at h
      have := ih s s1 b h
      simpa [List.find?_cons, hl] using this
    · simp only [hl, if_false, if_true] at h
      have hfind : (l :: rest).find? (fun l => decide (l ≠ [])) = some l := by
        simp [List.find?_cons, hl]
      rw [hfind]
      split at h
      · exact absurd h (by simp)
      · rename_i s2 hh
        simp only [Outcome.returned.injEq] at h
        left
        exact ⟨h.1.symm, h.2 ▸ load_header_false s s2 l hh⟩
      · rename_i s2 hh
        obtain ⟨digits, hd1, hd2, hd3⟩ := load_header_true s s2 l hh
        obtain ⟨hb, hv, hp⟩ := loop_rest_version U p rest s2 s1 b h
        right
        refine ⟨hb, hp, digits, hd1, hd2, ?_⟩
        rw [hv, hd3]

/-! ## Invariants of the reachable states -/

theorem hex_digest_ne_nil (name : Str) : hex_digest name ≠ [] := by
  intro h
  have hlen : (hex_digest name).length = 32 := by
    simp [hex_digest, List.length_take]
  rw [h] at hlen
  simp at hlen

theorem upsert_live (h : Str) (ty : CONFF_ITEM_TYPE) (v : Str) (items : List conff_item)
    (hh : h ≠ []) (hty : ty < 65536)
    (hitems : ∀ item ∈ items, item.hash ≠ [] ∧ item.type < 65536) :
    ∀ item ∈ upsert h ty v items, item.hash ≠ [] ∧ item.type < 65536 := by
  induction items with
  | nil =>
    intro item hi
    simp only [upsert, List.mem_singleton] at hi
    subst hi
    exact ⟨hh, hty⟩
  | cons a rest ih =>
    have hr : ∀ item ∈ rest, item.hash ≠ [] ∧ item.type < 65536 :=
      fun item hi => hitems item (List.mem_cons_of_mem _ hi)
    intro item hi
    by_cases hah : a.hash = h
    · simp only [upsert, hah, if_true, List.mem_cons] at hi
      rcases hi with hi | hi
      · subst hi; exact ⟨hh, hty⟩
      · exact hr item hi
    · simp only [upsert, hah, if_false, List.mem_cons] at hi
      rcases hi with hi | hi
      · subst hi; exact hitems _ (List.mem_cons_self _ _)
      · exact ih hr item hi

theorem upsert_hashes_of_some (h : Str) (ty : CONFF_ITEM_TYPE) (v : Str)
    (items : List conff_item) (hex : items.find? (has_hash h) ≠ none) :
    (upsert h ty v items).map (fun item => item.hash) = items.map (fun item => item.hash) := by
  induction items with
  | nil => simp at hex
  | cons a rest ih =>
    by_cases ha : a.hash = h
    · simp [upsert, ha]
    · have hex1 : rest.find? (has_hash h) ≠ none := by
        simpa [List.find?_cons, has_hash, ha] using hex
      simp [upsert, ha, ih hex1]

theorem upsert_nodup (h : Str) (ty : CONFF_ITEM_TYPE) (v : Str) (items : List conff_item)
    (hnd : (items.map (fun item => item.hash)).Nodup) :
    ((upsert h ty v items).map (fun item => item.hash)).Nodup := by
  by_cases hex : items.find? (has_hash h) = none
  · rw [upsert_of_none h ty v items hex]
    have hno := (find_none_iff h items).1 hex
    simp only [List.map_append, List.map_cons, List.map_nil]
    refine List.Nodup.append hnd (List.nodup_singleton _) ?_
    intro x hx hx1
    simp only [List.mem_singleton] at hx1
    obtain ⟨item, hi, hih⟩ := List.mem_map.1 hx
    exact hno item hi (hih.trans hx1)
  · rw [upsert_hashes_of_some h ty v items hex]; exact hnd

theorem eraseP_nodup (p : conff_item → Bool) (items : List conff_item)
    (hnd : (items.map (fun item => item.hash)).Nodup) :
    ((items.eraseP p).map (fun item => item.hash)).Nodup :=
  List.Nodup.sublist ((List.eraseP_sublist items).map _) hnd

theorem kept_items_nodup (s : conf_file) (hnd : (s._items.map (fun item => item.hash)).Nodup) :
    ((kept_items s).map (fun item => item.hash)).Nodup := by
  unfold kept_items
  split
  · simp
  · exact hnd

theorem save_self (fs : FileSystem) (s : conf_file) : (save fs s).2.1 = s := by
  unfold save; split
  · rfl
  · split <;> rfl

theorem save_fail (fs : FileSystem) (s : conf_file) (h : ¬ (save fs s).1 = true) :
    save fs s = (false, s, fs) := by
  unfold save at h ⊢
  split
  · rfl
  · split
    · rfl
    · rename_i h1 h2
      simp [h1, h2] at h

/-! ## The claims, continued -/

/-- C11 fails on the code: `create_and_open` empties the table only when the store was
bound to a file.  On a store that was never opened and holds the item of
`set_string("k", "v")`, `create_and_open("c.cfg")` returns true, binds the store,
sets the version to 1000 and writes the header line alone into the file, but keeps
the item: `get_n_items()` is 1, not 0. -/
theorem create_and_open_keeps_items :
    (set_string hex_digest conf_file.conf_file "k".toList "v".toList).2
      = ⟨-1, [], [⟨0, hex_digest "k".toList, "v".toList⟩]⟩
    ∧ (create_and_open ULONG_MAX_64 (single_file "c.cfg".toList [])
        ⟨-1, [], [⟨0, hex_digest "k".toList, "v".toList⟩]⟩ "c.cfg".toList).1
      = .returned true ⟨1000, "c.cfg".toList, [⟨0, hex_digest "k".toList, "v".toList⟩]⟩
    ∧ (create_and_open ULONG_MAX_64 (single_file "c.cfg".toList [])
        ⟨-1, [], [⟨0, hex_digest "k".toList, "v".toList⟩]⟩ "c.cfg".toList).2.content
          "c.cfg".toList = some "@conff:1000\n".toList
    ∧ get_n_items ⟨1000, "c.cfg".toList, [⟨0, hex_digest "k".toList, "v".toList⟩]⟩ = 1 := by
  decide

/-- C12, as stated, fails: a file without any non-blank line is loaded with success.
`open("c.cfg")` of an empty file on a fresh store returns true and binds the store,
and `get_version()` is still -1. -/
theorem open_blank_file_version :
    Reachable hex_digest ULONG_MAX_64 any_file ⟨-1, "c.cfg".toList, []⟩
    ∧ get_version ⟨-1, "c.cfg".toList, []⟩ = -1
    ∧ (⟨-1, "c.cfg".toList, []⟩ : conf_file)._file_name ≠ [] :=
  ⟨Reachable.open_ conf_file.conf_file ⟨-1, "c.cfg".toList, []⟩
      (single_file "c.cfg".toList []) "c.cfg".toList true Reachable.fresh
      (fun _ _ => trivial) (by decide),
    by decide, by decide⟩

/-- C12, amended: the version after `open`.  For every store and every file, when
`open(p)` returns true the store is bound to `p` and, if the file has a non-blank
line, the first one is `@conff:` followed by a non-empty string of digits and the
version is the non-negative integer these digits denote; if the file has no
non-blank line the version is what the reset at the start of `open` left (-1 for
a store that was bound, the old version otherwise).  When `open(p)` returns false
the store is not bound and the version is what that reset left. -/
theorem version_after_open (U : Nat) (fs : FileSystem) (s s1 : conf_file) (p : Str)
    (b : Bool) (h : open_ U fs s p = .returned b s1) :
    (b = false → s1._file_name = [] ∧
      s1._version = (if s._file_name ≠ [] then -1 else s._version)) ∧
    (b = true → s1._file_name = p ∧ ∃ content, fs.content p = some content ∧
      match (getlines content).find? (fun l => decide (l ≠ [])) with
      | none => s1._version = (if s._file_name ≠ [] then -1 else s._version)
      | some l => ∃ digits : Str, l = "@conff:".toList ++ digits ∧ digits ≠ [] ∧
          (∀ c ∈ digits, c.isDigit = true) ∧ s1._version = (decimal_value digits : Int)
          ∧ 0 ≤ s1._version) := by
  have hv : (if s._file_name ≠ [] then
      ({ _version := -1, _file_name := [], _items := [] } : conf_file) else s)._version
      = (if s._file_name ≠ [] then -1 else s._version) := by
    split <;> rfl
  have hn : (if s._file_name ≠ [] then
      ({ _version := -1, _file_name := [], _items := [] } : conf_file) else s)._file_name
      = [] := by
    split
    · rfl
    · rename_i h0; simpa using h0
  unfold open_ at h
  cases hc : fs.content p with
  | none =>
    simp only [hc, Outcome.returned.injEq] at h
    obtain ⟨hb, h⟩ := h
    subst h
    refine ⟨fun _ => ⟨hn, hv⟩, fun hb1 => ?_⟩
    rw [hb1] at hb; exact absurd hb (by decide)
  | some content =>
    simp only [hc] at h
    have hloop := loop_first_version U p (getlines content) _ s1 b h
    refine ⟨fun hb => ?_, fun hb => ⟨?_, content, rfl, ?_⟩⟩
    · cases hf : (getlines content).find? (fun l => decide (l ≠ [])) with
      | none =>
        rw [hf] at hloop
        rw [hb] at hloop; exact absurd hloop.1 (by decide)
      | some l =>
        rw [hf] at hloop
        rcases hloop with ⟨_, hs1⟩ | ⟨hb1, _⟩
        · rw [hs1]; exact ⟨hn, hv⟩
        · rw [hb] at hb1; exact absurd hb1 (by decide)
    · cases hf : (getlines content).find? (fun l => decide (l ≠ [])) with
      | none => rw [hf] at hloop; exact hloop.2.1
      | some l =>
        rw [hf] at hloop
        rcases hloop with ⟨hb1, _⟩ | ⟨_, hp, _⟩
        · rw [hb] at hb1; exact absurd hb1 (by decide)
        · exact hp
    · cases hf : (getlines content).find? (fun l => decide (l ≠ [])) with
      | none =>
        rw [hf] at hloop
        simp only
        rw [hloop.2.2, hv]
      | some l =>
        rw [hf] at hloop
        rcases hloop with ⟨hb1, _⟩ | ⟨_, _, digits, hd1, hd2, hd3⟩
        · rw [hb] at hb1; exact absurd hb1 (by decide)
        · obtain ⟨hne, hdig⟩ := (is_integer_iff digits).1 hd2
          exact ⟨digits, hd1, hne, hdig, hd3, by rw [hd3]; exact Int.ofNat_nonneg _⟩

/-- C12, amended, at a file with the header `@conff:1000` and one item line: the store
is bound to `c.cfg` and the version is 1000. -/
theorem version_after_open_witness :
    open_ ULONG_MAX_64 (single_file "c.cfg".toList "@conff:1000\n$config ab 0~x\n".toList)
      conf_file.conf_file "c.cfg".toList
      = .returned true ⟨1000, "c.cfg".toList, [⟨0, "ab".toList, "x".toList⟩]⟩
    ∧ (⟨1000, "c.cfg".toList, [⟨0, "ab".toList, "x".toList⟩]⟩ : conf_file)._file_name
      = "c.cfg".toList :=
  ⟨by decide,
    ((version_after_open ULONG_MAX_64
      (single_file "c.cfg".toList "@conff:1000\n$config ab 0~x\n".toList)
      conf_file.conf_file ⟨1000, "c.cfg".toList, [⟨0, "ab".toList, "x".toList⟩]⟩
      "c.cfg".toList true (by decide)).2 rfl).1⟩

/-- C13, as stated, fails: an item line with the kind code 2 is loaded as an item of
kind `NO_TYPE`.  After `open("c.cfg")` on a fresh store, the line `$config ab 2~x`
after the header, the table holds an item whose kind is `NO_TYPE`. -/
theorem open_loads_no_type_item :
    Reachable hex_digest ULONG_MAX_64 any_file
      ⟨1000, "c.cfg".toList, [⟨CONFF_ITEM_TYPE.NO_TYPE, "ab".toList, "x".toList⟩]⟩
    ∧ ∃ item ∈ (⟨1000, "c.cfg".toList,
          [⟨CONFF_ITEM_TYPE.NO_TYPE, "ab".toList, "x".toList⟩]⟩ : conf_file)._items,
        item.type = CONFF_ITEM_TYPE.NO_TYPE :=
  ⟨Reachable.open_ conf_file.conf_file _
      (single_file "c.cfg".toList "@conff:1000\n$config ab 2~x\n".toList) "c.cfg".toList true
      Reachable.fresh (fun _ _ => trivial) (by decide),
    ⟨_, List.mem_singleton.2 rfl, rfl⟩⟩

/-- C13, amended: the live-table invariant without the kind.  With a name hash that
never returns the empty string, in every store state reachable from a fresh store
through the public operations, on arbitrary file contents, every item of the
table has a non-empty digest and a kind that is a 16-bit code. -/
theorem live_table_digests (hash : Str → Str) (hhash : ∀ n, hash n ≠ []) (U : Nat)
    (s : conf_file) (h : Reachable hash U any_file s) :
    ∀ item ∈ s._items, item.hash ≠ [] ∧ item.type < 65536 := by
  induction h with
  | fresh => simp [conf_file.conf_file]
  | open_ s s1 fs p b _ _ hopen ih =>
    exact open_items_inv U fs p _ s s1 b
      (fun l item hdec hne => ⟨hne, item_from_text_type U l item hdec⟩) ih hopen
  | create_and_open s s1 fs p b _ hc ih =>
    rcases create_and_open_eq U fs s p with heq | ⟨_, heq⟩
    · rw [heq] at hc
      simp only [Outcome.returned.injEq] at hc
      rw [← hc.2]; exact ih
    · rw [heq] at hc
      exact open_items_inv U _ p _ s s1 b
        (fun l item hdec hne => ⟨hne, item_from_text_type U l item hdec⟩) ih hc
  | set_string s name text _ ih =>
    rw [set_string_eq]
    exact upsert_live _ _ _ _ (hhash name) (by show (0 : Nat) < 65536; decide) ih
  | set_int s name value _ ih =>
    rw [set_int_eq]
    exact upsert_live _ _ _ _ (hhash name) (by show (1 : Nat) < 65536; decide) ih
  | delete_config s name _ ih =>
    rw [delete_config_eq]
    split
    · exact ih
    · intro item hi
      exact ih item (List.mem_of_mem_eraseP hi)
  | save s fs _ ih =>
    have : (save fs s).2.1 = s := by
      unfold save; split
      · rfl
      · split <;> rfl
    rw [this]; exact ih

/-- C13, amended, at the store loaded from a file with one item line of kind code 2: the
item has a non-empty digest and a 16-bit kind. -/
theorem live_table_digests_witness :
    (⟨CONFF_ITEM_TYPE.NO_TYPE, "ab".toList, "x".toList⟩ : conff_item).hash ≠ [] ∧
    (⟨CONFF_ITEM_TYPE.NO_TYPE, "ab".toList, "x".toList⟩ : conff_item).type < 65536 :=
  live_table_digests hex_digest hex_digest_ne_nil ULONG_MAX_64
    ⟨1000, "c.cfg".toList, [⟨CONFF_ITEM_TYPE.NO_TYPE, "ab".toList, "x".toList⟩]⟩
    (Reachable.open_ conf_file.conf_file _
      (single_file "c.cfg".toList "@conff:1000\n$config ab 2~x\n".toList) "c.cfg".toList true
      Reachable.fresh (fun _ _ => trivial) (by decide))
    ⟨CONFF_ITEM_TYPE.NO_TYPE, "ab".toList, "x".toList⟩ (List.mem_singleton.2 rfl)

/-- C14, as stated, fails: `open` appends every line that decodes, whatever digests
the table holds.  Through the public operations alone: `create_and_open("c.cfg")`,
`set_string("k", t)` with `t` the text `a`, a newline, then
`$config <digest of k> 0~b`, `save()` and `open("c.cfg")` give a table of two
items that both carry the digest of `k`. -/
theorem open_loads_repeated_digest :
    Reachable hex_digest ULONG_MAX_64 any_file
      ⟨1000, "c.cfg".toList, [⟨0, hex_digest "k".toList, "a".toList⟩,
        ⟨0, hex_digest "k".toList, "b".toList⟩]⟩
    ∧ ¬ ((⟨1000, "c.cfg".toList, [⟨0, hex_digest "k".toList, "a".toList⟩,
        ⟨0, hex_digest "k".toList, "b".toList⟩]⟩ : conf_file)._items.map
          (fun item => item.hash)).Nodup :=
  ⟨Reachable.open_ _ _
      (save (single_file "c.cfg".toList "@conff:1000\n".toList)
        (set_string hex_digest ⟨1000, "c.cfg".toList, []⟩ "k".toList
          "a\n$config 6b000000000000000000000000000000 0~b".toList).2).2.2
      "c.cfg".toList true
      (Reachable.save _ (single_file "c.cfg".toList "@conff:1000\n".toList)
        (Reachable.set_string _ "k".toList
          "a\n$config 6b000000000000000000000000000000 0~b".toList
          (Reachable.create_and_open conf_file.conf_file ⟨1000, "c.cfg".toList, []⟩
            (single_file "c.cfg".toList []) "c.cfg".toList true Reachable.fresh (by decide))))
      (fun _ _ => trivial) (by decide),
    by decide⟩

theorem loop_rest_digests (U : Nat) (p : Str) :
    ∀ (ls : List Str) (s s1 : conf_file) (b : Bool),
      open_.loop U p ls false s = .returned b s1 →
      s1._items.map (fun item => item.hash)
        = s._items.map (fun item => item.hash) ++ ls.filterMap (digest_of_line U) := by
  intro ls
  induction ls with
  | nil =>
    intro s s1 b h
    simp only [open_.loop, Outcome.returned.injEq] at h
    obtain ⟨_, h⟩ := h
    subst h
    simp
  | cons l rest ih =>
    intro s s1 b h
    rw [open_.loop] at h
    by_cases hl : l = []
    · simp only [hl, if_true] at h
      have hd : digest_of_line U [] = none := by rfl
      rw [ih s s1 b h, hl]
      simp [List.filterMap_cons, hd]
    · simp only [hl, if_false, Bool.false_eq_true] at h
      cases hdec : _item_from_text U l with
      | error e => rw [hdec] at h; exact absurd h (by simp)
      | ok item =>
        rw [hdec] at h
        by_cases hne : item.hash = []
        · simp only [hne, if_true] at h
          have hd : digest_of_line U l = none := by simp [digest_of_line, hdec, hne]
          rw [ih s s1 b h]
          simp [List.filterMap_cons, hd]
        · simp only [hne, if_false] at h
          have hd : digest_of_line U l = some item.hash := by simp [digest_of_line, hdec, hne]
          have := ih _ s1 b h
          rw [this]
          simp [List.filterMap_cons, hd]

theorem loop_first_digests (U : Nat) (p : Str) :
    ∀ (ls : List Str) (s s1 : conf_file) (b : Bool),
      open_.loop U p ls true s = .returned b s1 →
      s1._items.map (fun item => item.hash)
        = s._items.map (fun item => item.hash) ++
          (if b = true then (lines_after_header ls).filterMap (digest_of_line U) else []) := by
  intro ls
  induction ls with
  | nil =>
    intro s s1 b h
    simp only [open_.loop, Outcome.returned.injEq] at h
    obtain ⟨_, h⟩ := h
    subst h
    simp [lines_after_header]
  | cons l rest ih =>
    intro s s1 b h
    rw [open_.loop] at h
    by_cases hl : l = []
    · simp only [hl, if_true] at h
      rw [ih s s1 b h, hl]
      simp [lines_after_header]
    · simp only [hl, if_false, if_true] at h
      have hafter : lines_after_header (l :: rest) = rest := by simp [lines_after_header, hl]
      rw [hafter]
      split at h
      · exact absurd h (by simp)
      · rename_i s2 hh
        simp only [Outcome.returned.injEq] at h
        obtain ⟨hb, hs⟩ := h
        rw [← hs, load_header_false s s2 l hh, ← hb]
        simp
      · rename_i s2 hh
        have hf := load_header_frame s s2 l true hh
        obtain ⟨hb, _, _⟩ := loop_rest_version U p rest s2 s1 b h
        rw [loop_rest_digests U p rest s2 s1 b h, hf.1, hb]
        simp

theorem open_digests (U : Nat) (fs : FileSystem) (p : Str) (s s1 : conf_file) (b : Bool)
    (h : open_ U fs s p = .returned b s1) :
    s1._items.map (fun item => item.hash) = (kept_items s).map (fun item => item.hash) ∨
    ∃ content, fs.content p = some content ∧
      s1._items.map (fun item => item.hash)
        = (kept_items s).map (fun item => item.hash) ++ line_digests U content := by
  unfold open_ at h
  have hk : (if s._file_name ≠ [] then
      ({ _version := -1, _file_name := [], _items := [] } : conf_file) else s)._items
      = kept_items s := by
    unfold kept_items; split <;> rfl
  cases hc : fs.content p with
  | none =>
    simp only [hc, Outcome.returned.injEq] at h
    obtain ⟨_, h⟩ := h
    left
    rw [← h, hk]
  | some content =>
    simp only [hc] at h
    have := loop_first_digests U p (getlines content) _ s1 b h
    rw [hk] at this
    cases b with
    | false => left; simpa using this
    | true => right; exact ⟨content, rfl, by simpa [line_digests] using this⟩

/-- C14, amended: digest uniqueness when the loaded digests are distinct.  In every
store state reachable from a fresh store through `create_and_open`, `set_string`,
`set_int`, `delete_config`, `save`, and `open` of files whose item lines (the lines
after the header that decode to an item with a non-empty digest) carry digests
different from each other and from the digests of the items that `open` keeps in
the table, no two items of the table have the same digest. -/
theorem digests_unique_distinct_lines (hash : Str → Str) (U : Nat) (s : conf_file)
    (h : ReachableDistinct hash U s) :
    (s._items.map (fun item => item.hash)).Nodup := by
  induction h with
  | fresh => simp [conf_file.conf_file]
  | open_ s s1 fs p b _ hadm hopen ih =>
    have hkept := kept_items_nodup s ih
    rcases open_digests U fs p s s1 b hopen with heq | ⟨content, hc, heq⟩
    · rw [heq]; exact hkept
    · obtain ⟨hnd, hdis⟩ := hadm content hc
      rw [heq]
      refine List.Nodup.append hkept hnd ?_
      intro d hd1 hd2
      obtain ⟨item, hi, hih⟩ := List.mem_map.1 hd1
      exact hdis d hd2 item hi hih
  | create_and_open s s1 fs p b _ hc ih =>
    rcases create_and_open_eq U fs s p with heq | ⟨_, heq⟩
    · rw [heq] at hc
      simp only [Outcome.returned.injEq] at hc
      rw [← hc.2]; exact ih
    · rw [heq] at hc
      have hfile : ∀ content, (fs.write p "@conff:1000\n".toList).content p = some content →
          no_item_line content := by
        intro content hcont
        rw [write_content] at hcont
        injection hcont with hcont
        rw [← hcont]; exact header_only_no_item
      rw [open_no_item U _ p s s1 b hfile hc]
      exact kept_items_nodup s ih
  | set_string s name text _ ih =>
    rw [set_string_eq]; exact upsert_nodup _ _ _ _ ih
  | set_int s name value _ ih =>
    rw [set_int_eq]; exact upsert_nodup _ _ _ _ ih
  | delete_config s name _ ih =>
    rw [delete_config_eq]
    split
    · exact ih
    · exact eraseP_nodup _ _ ih
  | save s fs _ ih =>
    rw [save_self]; exact ih

/-- C14, amended, at the store that `open("c.cfg")` loads on a fresh store from a file
with two item lines of different digests, after `set_string("k", "v")` on it. -/
theorem digests_unique_distinct_lines_witness :
    ((set_string hex_digest ⟨1000, "c.cfg".toList,
        [⟨0, "ab".toList, "x".toList⟩, ⟨1, "cd".toList, "3".toList⟩]⟩
        "k".toList "v".toList).2._items.map (fun item => item.hash)).Nodup :=
  digests_unique_distinct_lines hex_digest ULONG_MAX_64 _
    (ReachableDistinct.set_string _ "k".toList "v".toList
      (ReachableDistinct.open_ conf_file.conf_file
        ⟨1000, "c.cfg".toList, [⟨0, "ab".toList, "x".toList⟩, ⟨1, "cd".toList, "3".toList⟩]⟩
        (single_file "c.cfg".toList "@conff:1000\n$config ab 0~x\n$config cd 1~3\n".toList)
        "c.cfg".toList true ReachableDistinct.fresh
        (fun content hc => by
          have hcontent : content = "@conff:1000\n$config ab 0~x\n$config cd 1~3\n".toList := by
            simpa [single_file] using hc.symm
          rw [hcontent]
          decide)
        (by decide)))

/-- C15: lossless re-serialization of loaded data.  For every file content on which
`open(p)` on a fresh store returns true, after `save()` the call `open(p)` on a
second fresh store returns true and yields the same item table: the same items in
the same order, each with the same kind, digest and raw value. -/
theorem reload_after_save_same_table (U : Nat) (hU : 65535 ≤ U) (fs : FileSystem) (p : Str)
    (s1 : conf_file) (h : open_ U fs conf_file.conf_file p = .returned true s1) :
    ∃ s2 : conf_file, open_ U (save fs s1).2.2 conf_file.conf_file p = .returned true s2 ∧
      s2._items = s1._items := by
  obtain ⟨hname, hclean⟩ := open_fresh_clean U fs p s1 h
  by_cases hsave : (save fs s1).1 = true
  · have := save_open_roundtrip U hU fs s1 hclean hsave conf_file.conf_file
    rw [hname] at this
    exact ⟨_, this, by simp [kept_items, conf_file.conf_file]⟩
  · rw [save_fail fs s1 hsave]
    exact ⟨s1, h, rfl⟩

/-- C15 at a file with a garbage line, a kind code written `007` and an empty value: the
table loaded again after `save()` is the table loaded first. -/
theorem reload_after_save_same_table_witness :
    open_ ULONG_MAX_64
      (single_file "c.cfg".toList "@conff:7\ngarbage\n$config ab 007~\n$config cd 1~x y\n".toList)
      conf_file.conf_file "c.cfg".toList
      = .returned true ⟨7, "c.cfg".toList, [⟨7, "ab".toList, []⟩, ⟨1, "cd".toList, "x y".toList⟩]⟩
    ∧ ∃ s2 : conf_file,
      open_ ULONG_MAX_64
        (save (single_file "c.cfg".toList
            "@conff:7\ngarbage\n$config ab 007~\n$config cd 1~x y\n".toList)
          ⟨7, "c.cfg".toList, [⟨7, "ab".toList, []⟩, ⟨1, "cd".toList, "x y".toList⟩]⟩).2.2
        conf_file.conf_file "c.cfg".toList = .returned true s2 ∧
      s2._items = (⟨7, "c.cfg".toList,
        [⟨7, "ab".toList, []⟩, ⟨1, "cd".toList, "x y".toList⟩]⟩ : conf_file)._items :=
  ⟨by decide,
    reload_after_save_same_table ULONG_MAX_64 (by decide)
      (single_file "c.cfg".toList "@conff:7\ngarbage\n$config ab 007~\n$config cd 1~x y\n".toList)
      "c.cfg".toList ⟨7, "c.cfg".toList, [⟨7, "ab".toList, []⟩, ⟨1, "cd".toList, "x y".toList⟩]⟩
      (by decide)⟩

/-- C16: the output of `save`.  On a store that is not bound to a path `save()` returns
false and leaves the file system and the store as they are.  When `save()` returns
true the store is bound, its items, version and path are unchanged, the file at its
path holds exactly the line `@conff:1000` and then, for each item in table order,
the line `$config <digest> <kind code>~<raw value>`, every line ended by a
newline, and every other file is as before. -/
theorem save_output_format (fs : FileSystem) (s : conf_file) :
    (s._file_name = [] → save fs s = (false, s, fs)) ∧
    ((save fs s).1 = true →
      s._file_name ≠ [] ∧ (save fs s).2.1 = s ∧
      (save fs s).2.2.content s._file_name = some ("@conff:1000\n".toList ++
        (s._items.map fun item => "$config ".toList ++ item.hash ++ " ".toList
          ++ Nat.toDigits 10 (item.type % 65536) ++ "~".toList ++ item.value
          ++ "\n".toList).flatten) ∧
      ∀ q, q ≠ s._file_name → (save fs s).2.2.content q = fs.content q) := by
  refine ⟨fun h => by simp [save, h], fun h => ?_⟩
  obtain ⟨hne, heq⟩ := save_eq fs s h
  refine ⟨hne, by rw [heq], ?_, ?_⟩
  · rw [heq, write_content]
    have hhead : "@conff:".toList ++ to_string CONFF_VERSION ++ "\n".toList
        = "@conff:1000\n".toList := by decide
    unfold saved_text
    rw [hhead]
    rfl
  · intro q hq
    rw [heq]
    simp [FileSystem.write, hq]

/-- C16 at a store loaded with version 7 that holds two items. -/
theorem save_output_format_witness :
    (save (single_file "c.cfg".toList "@conff:7\n".toList)
        ⟨7, "c.cfg".toList, [⟨1, "ab".toList, "3".toList⟩, ⟨0, "cd".toList, "x y".toList⟩]⟩).2.2.content
      "c.cfg".toList = some "@conff:1000\n$config ab 1~3\n$config cd 0~x y\n".toList :=
  ((save_output_format (single_file "c.cfg".toList "@conff:7\n".toList)
    ⟨7, "c.cfg".toList, [⟨1, "ab".toList, "3".toList⟩, ⟨0, "cd".toList, "x y".toList⟩]⟩).2
      (by decide)).2.2.1

/-- C17: `set_string` and `set_int` change only the targeted slot.  In every store, for
every name, text and int value, the call returns true and leaves version and path
as they are; when no item has the digest of the name the new table is the old one
with the item of kind, digest and value appended; otherwise the table keeps its
length and differs from the old one only at the first position with that digest,
where the digest is kept and kind and value are replaced (`TEXT` and the text,
`INTEGER` and the decimal text of the value). -/
theorem set_changes_one_slot (hash : Str → Str) (s : conf_file) (name text : Str)
    (value : Int) :
    ((set_string hash s name text).1 = true ∧
      (set_string hash s name text).2._version = s._version ∧
      (set_string hash s name text).2._file_name = s._file_name ∧
      slot_written s._items (set_string hash s name text).2._items (hash name)
        { type := CONFF_ITEM_TYPE.TEXT, hash := hash name, value := text }) ∧
    ((set_int hash s name value).1 = true ∧
      (set_int hash s name value).2._version = s._version ∧
      (set_int hash s name value).2._file_name = s._file_name ∧
      slot_written s._items (set_int hash s name value).2._items (hash name)
        { type := CONFF_ITEM_TYPE.INTEGER, hash := hash name, value := to_string value }) := by
  rw [set_string_eq, set_int_eq]
  exact ⟨⟨rfl, rfl, rfl, upsert_slot _ _ _ _⟩, ⟨rfl, rfl, rfl, upsert_slot _ _ _ _⟩⟩

/-- C18: `delete_config` removes exactly one item and keeps the order.  In every store
and for every name: when no item has the digest of the name the call returns false
and the store is unchanged; otherwise it returns true, the table loses the first
item with that digest and nothing else (so `get_n_items()` drops by exactly 1), and
version and path are unchanged. -/
theorem delete_config_removes_first (hash : Str → Str) (s : conf_file) (name : Str) :
    ((∀ item ∈ s._items, item.hash ≠ hash name) → delete_config hash s name = (false, s)) ∧
    ((∃ item ∈ s._items, item.hash = hash name) →
      ∃ (before : List conff_item) (x : conff_item) (after : List conff_item),
        s._items = before ++ x :: after ∧ x.hash = hash name ∧
        (∀ item ∈ before, item.hash ≠ hash name) ∧
        delete_config hash s name = (true, { s with _items := before ++ after }) ∧
        get_n_items (delete_config hash s name).2 + 1 = get_n_items s) := by
  refine ⟨fun hno => ?_, fun hex => ?_⟩
  · rw [delete_config_eq, (find_none_iff _ _).2 hno]
  · obtain ⟨item, hi, hh⟩ := hex
    have hp : has_hash (hash name) item = true := by simp [has_hash, hh]
    obtain ⟨x, before, after, hb, hx, hsplit, herase⟩ := List.exists_of_eraseP hi hp
    have hfind : s._items.find? (has_hash (hash name)) ≠ none := by
      intro hnone
      exact (find_none_iff _ _).1 hnone item hi hh
    have hdel : delete_config hash s name = (true, { s with _items := before ++ after }) := by
      rw [delete_config_eq]
      cases hf : s._items.find? (has_hash (hash name)) with
      | none => exact absurd hf hfind
      | some y => simp only [herase]
    refine ⟨before, x, after, hsplit, by simpa [has_hash] using hx, ?_, hdel, ?_⟩
    · intro y hy
      simpa [has_hash] using hb y hy
    · rw [hdel]
      simp only [get_n_items, hsplit, List.length_append, List.length_cons]
      omega

/-- C18 at a table of three items, two of which carry the digest of the name. -/
theorem delete_config_removes_first_witness :
    ∃ (before : List conff_item) (x : conff_item) (after : List conff_item),
      (⟨1000, "c.cfg".toList, [⟨0, hex_digest "a".toList, "1".toList⟩,
          ⟨0, hex_digest "k".toList, "2".toList⟩, ⟨0, hex_digest "k".toList, "3".toList⟩]⟩ :
          conf_file)._items = before ++ x :: after ∧
      x.hash = hex_digest "k".toList ∧
      (∀ item ∈ before, item.hash ≠ hex_digest "k".toList) ∧
      delete_config hex_digest ⟨1000, "c.cfg".toList, [⟨0, hex_digest "a".toList, "1".toList⟩,
          ⟨0, hex_digest "k".toList, "2".toList⟩, ⟨0, hex_digest "k".toList, "3".toList⟩]⟩
          "k".toList
        = (true, { (⟨1000, "c.cfg".toList, [⟨0, hex_digest "a".toList, "1".toList⟩,
          ⟨0, hex_digest "k".toList, "2".toList⟩, ⟨0, hex_digest "k".toList, "3".toList⟩]⟩ :
            conf_file) with _items := before ++ after }) ∧
      get_n_items (delete_config hex_digest ⟨1000, "c.cfg".toList,
          [⟨0, hex_digest "a".toList, "1".toList⟩, ⟨0, hex_digest "k".toList, "2".toList⟩,
            ⟨0, hex_digest "k".toList, "3".toList⟩]⟩ "k".toList).2 + 1
        = get_n_items ⟨1000, "c.cfg".toList, [⟨0, hex_digest "a".toList, "1".toList⟩,
          ⟨0, hex_digest "k".toList, "2".toList⟩, ⟨0, hex_digest "k".toList, "3".toList⟩]⟩ :=
  (delete_config_removes_first hex_digest ⟨1000, "c.cfg".toList,
    [⟨0, hex_digest "a".toList, "1".toList⟩, ⟨0, hex_digest "k".toList, "2".toList⟩,
      ⟨0, hex_digest "k".toList, "3".toList⟩]⟩ "k".toList).2
    ⟨⟨0, hex_digest "k".toList, "2".toList⟩, by decide, rfl⟩

/-- C19, as stated, fails: the kind is the code modulo 65536, so a code outside 0 and 1
can decode to `TEXT` or `INTEGER`, and a code above the largest `unsigned long`
makes `std::stoul` throw.  The line `$config ab 65536~x` decodes to an item of kind
`TEXT`, `$config ab 65537~x` to one of kind `INTEGER`, and
`$config ab 99999999999999999999~x` raises `std::out_of_range`. -/
theorem kind_code_wraps_to_text :
    _item_from_text ULONG_MAX_64 "$config ab 65536~x".toList
      = .ok ⟨CONFF_ITEM_TYPE.TEXT, "ab".toList, "x".toList⟩
    ∧ _item_from_text ULONG_MAX_64 "$config ab 65537~x".toList
      = .ok ⟨CONFF_ITEM_TYPE.INTEGER, "ab".toList, "x".toList⟩
    ∧ _item_from_text ULONG_MAX_64 "$config ab 99999999999999999999~x".toList
      = .error .out_of_range := by
  decide

/-- C19, amended: the kind is the code modulo 65536.  For every item line
`$config <digest> <code>~<value>` whose digest has no space and no `~`, whose value
has no `~`, and whose code is a non-empty digit string denoting a number `n` not
above the largest `unsigned long`, the decoder yields the item with that digest,
that value and the kind `n mod 65536`; the kind is neither `TEXT` nor `INTEGER`
exactly when `n mod 65536` is neither 0 nor 1. -/
theorem kind_code_modulo (U : Nat) (d code v : Str) (hd1 : ' ' ∉ d) (hd2 : '~' ∉ d)
    (hne : code ≠ []) (hdig : ∀ c ∈ code, c.isDigit = true) (hv : '~' ∉ v)
    (hfit : decimal_value code ≤ U) :
    ∃ item : conff_item,
      _item_from_text U ("$config ".toList ++ d ++ " ".toList ++ code ++ "~".toList ++ v)
        = .ok item ∧
      item.hash = d ∧ item.value = v ∧ item.type = decimal_value code % 65536 ∧
      ((item.type ≠ CONFF_ITEM_TYPE.TEXT ∧ item.type ≠ CONFF_ITEM_TYPE.INTEGER) ↔
        (decimal_value code % 65536 ≠ 0 ∧ decimal_value code % 65536 ≠ 1)) := by
  have hint : is_integer code = true := (is_integer_iff code).2 ⟨hne, hdig⟩
  refine ⟨{ type := decimal_value code % 65536, hash := d, value := v }, ?_, rfl, rfl, rfl, ?_⟩
  · rw [item_from_text_fields U d code v hd1 hd2 hint hv, stoul_digits U code hint,
      if_neg (not_lt.2 hfit)]
  · exact Iff.rfl

/-- C19, amended, at the line `$config ab 65538~x`, whose kind is 2. -/
theorem kind_code_modulo_witness :
    ∃ item : conff_item,
      _item_from_text ULONG_MAX_64 ("$config ".toList ++ "ab".toList ++ " ".toList
          ++ "65538".toList ++ "~".toList ++ "x".toList) = .ok item ∧
      item.hash = "ab".toList ∧ item.value = "x".toList ∧
      item.type = decimal_value "65538".toList % 65536 ∧
      ((item.type ≠ CONFF_ITEM_TYPE.TEXT ∧ item.type ≠ CONFF_ITEM_TYPE.INTEGER) ↔
        (decimal_value "65538".toList % 65536 ≠ 0 ∧ decimal_value "65538".toList % 65536 ≠ 1)) :=
  kind_code_modulo ULONG_MAX_64 "ab".toList "65538".toList "x".toList (by decide) (by decide)
    (by decide) (by decide) (by decide) (by decide)

/-- C20: operations on one key do not disturb another key.  In every store (repeated
digests allowed), for all names `n1` and `n2` with different digests, after
`set_string(n1, t)`, after `set_int(n1, v)` and after `delete_config(n1)` the calls
`get_string(n2)` and `get_int(n2)` return what they returned before. -/
theorem other_key_untouched (hash : Str → Str) (s : conf_file) (n1 n2 : Str)
    (hne : hash n1 ≠ hash n2) (t : Str) (v : Int) :
    (get_string hash (set_string hash s n1 t).2 n2 = get_string hash s n2 ∧
      get_int hash (set_string hash s n1 t).2 n2 = get_int hash s n2) ∧
    (get_string hash (set_int hash s n1 v).2 n2 = get_string hash s n2 ∧
      get_int hash (set_int hash s n1 v).2 n2 = get_int hash s n2) ∧
    (get_string hash (delete_config hash s n1).2 n2 = get_string hash s n2 ∧
      get_int hash (delete_config hash s n1).2 n2 = get_int hash s n2) := by
  have hdel : (delete_config hash s n1).2._items.find? (has_hash (hash n2))
      = s._items.find? (has_hash (hash n2)) := by
    rw [delete_config_eq]
    split
    · rfl
    · exact find_eraseP_other _ _ hne _
  refine ⟨?_, ?_, ?_⟩
  · simp only [get_string_eq, get_int_eq, set_string_eq, find_upsert_other _ _ hne, and_self]
  · simp only [get_string_eq, get_int_eq, set_int_eq, find_upsert_other _ _ hne, and_self]
  · simp only [get_string_eq, get_int_eq, hdel, and_self]

/-- C20 at a table loaded with the digest of `mode` on two lines: writing and deleting
`retries` leaves what `get_string("mode")` and `get_int("mode")` return. -/
theorem other_key_untouched_witness :
    (get_string hex_digest (set_string hex_digest ⟨1000, "c.cfg".toList,
        [⟨0, hex_digest "mode".toList, "7".toList⟩, ⟨1, hex_digest "retries".toList, "3".toList⟩,
          ⟨0, hex_digest "mode".toList, "slow".toList⟩]⟩ "retries".toList "x".toList).2
        "mode".toList
      = get_string hex_digest ⟨1000, "c.cfg".toList,
        [⟨0, hex_digest "mode".toList, "7".toList⟩, ⟨1, hex_digest "retries".toList, "3".toList⟩,
          ⟨0, hex_digest "mode".toList, "slow".toList⟩]⟩ "mode".toList)
    ∧ (get_int hex_digest (delete_config hex_digest ⟨1000, "c.cfg".toList,
        [⟨0, hex_digest "mode".toList, "7".toList⟩, ⟨1, hex_digest "retries".toList, "3".toList⟩,
          ⟨0, hex_digest "mode".toList, "slow".toList⟩]⟩ "retries".toList).2 "mode".toList
      = get_int hex_digest ⟨1000, "c.cfg".toList,
        [⟨0, hex_digest "mode".toList, "7".toList⟩, ⟨1, hex_digest "retries".toList, "3".toList⟩,
          ⟨0, hex_digest "mode".toList, "slow".toList⟩]⟩ "mode".toList) :=
  ⟨(other_key_untouched hex_digest ⟨1000, "c.cfg".toList,
      [⟨0, hex_digest "mode".toList, "7".toList⟩, ⟨1, hex_digest "retries".toList, "3".toList⟩,
        ⟨0, hex_digest "mode".toList, "slow".toList⟩]⟩ "retries".toList "mode".toList
      (by decide) "x".toList 0).1.1,
    (other_key_untouched hex_digest ⟨1000, "c.cfg".toList,
      [⟨0, hex_digest "mode".toList, "7".toList⟩, ⟨1, hex_digest "retries".toList, "3".toList⟩,
        ⟨0, hex_digest "mode".toList, "slow".toList⟩]⟩ "retries".toList "mode".toList
      (by decide) "x".toList 0).2.2.2⟩

end cf
